import Mathlib

/-!
# regen: validator and generator of `github.com/hikitani/regen`

A shallow embedding of `internal/ast/ast.go` (the AST and `Walk`) and of
`internal/generator/generator.go` (the validator and the random generator).

Modelling conventions.

* A Go `string` is a sequence of bytes: `GoString := List Nat`, every element below 256.
  `goStr` turns a Lean string literal into its UTF-8 bytes, as the Go compiler does for
  a string constant.
* Go's `int` is a 64-bit integer: a value is an `Int`, and the arithmetic of `getSeqLen`
  wraps modulo 2^64 (`wrapInt64`). Strings are unbounded: the size of the memory, and with
  it the length check of `strings.Repeat`, is outside the model.
  The `byte` counter of `charsFromCharClassRange` wraps modulo 256.
* A run of Go code ends in a value, in a panic, or not at all: `Res`.
* `math/rand` and the unspecified iteration order of a Go map are the two sources of
  nondeterminism. Both read the same oracle `Rand`, an infinite stream of raw draws,
  at a cursor position that is threaded through the generator.
* `ast.ParseString` is implemented by an external parsing library; `New` takes it as a
  parameter. The struct tag of the alternatives, `(@@ (Alternative @@)?)?`, is modelled as
  the library reads it, with the parser of one alternative as a parameter.
* `strconv.Atoi` keeps its range check for a 64-bit `int`; the text it quotes in an error
  is given unescaped.
-/

namespace Regen

/-! ## Go strings and results -/

/-- A Go string: its bytes. -/
abbrev GoString := List Nat

/-- UTF-8 encoding of one code point. -/
def utf8Bytes (c : Char) : List Nat :=
  let n := c.toNat
  if n < 128 then [n]
  else if n < 2048 then [192 + n / 64, 128 + n % 64]
  else if n < 65536 then [224 + n / 4096, 128 + n / 64 % 64, 128 + n % 64]
  else [240 + n / 262144, 128 + n / 4096 % 64, 128 + n / 64 % 64, 128 + n % 64]

/-- The bytes of a Go string constant written as a Lean literal. -/
def goStr (s : String) : GoString := s.toList.flatMap utf8Bytes

/-- Outcome of running a piece of Go code. -/
inductive Res (α : Type) where
  | ok (a : α)
  | panic (msg : String)
  | hang
deriving DecidableEq, Repr

/-- Sequencing: a panic or a non-terminating step ends the run. -/
def Res.bind {α β : Type} (r : Res α) (f : α → Res β) : Res β :=
  match r with
  | .ok a => f a
  | .panic m => .panic m
  | .hang => .hang

/-- The run ended with a value. -/
def Res.isOk {α : Type} (r : Res α) : Bool :=
  match r with
  | .ok _ => true
  | _ => false

/-- Go `error` values, identified with their `Error()` text. -/
structure GoError where
  msg : GoString
deriving DecidableEq, Repr

/-- The text of `%d` for an int. -/
def fmtInt (i : Int) : GoString := goStr (toString i)

/-- The text `fmt` produces for `%w` (and `Error()` of the operand when it is non-nil). -/
def fmtW (e : Option GoError) : GoString :=
  match e with
  | some e => e.msg
  | none => goStr "%!w(<nil>)"

/-- Go `strings.HasPrefix`. -/
def HasPrefix (s pre : GoString) : Bool := pre.isPrefixOf s

/-- Go `strings.Index`: position of the first occurrence of `substr` in `s`, or -1. -/
def Index (s substr : GoString) : Int :=
  if HasPrefix s substr then 0
  else
    match s with
    | [] => -1
    | _ :: t =>
      let i := Index t substr
      if i = -1 then -1 else i + 1

/-- Go `strings.Cut`. -/
def Cut (s sep : GoString) : GoString × GoString × Bool :=
  let i := Index s sep
  if 0 ≤ i then (s.take i.toNat, s.drop (i.toNat + sep.length), true)
  else (s, [], false)

/-- Go `strings.Repeat`; a negative count panics. -/
def Repeat (s : GoString) (count : Int) : Res GoString :=
  if count < 0 then .panic "strings: negative Repeat count"
  else .ok (List.replicate count.toNat s).flatten

/-! ## `internal/ast/ast.go` -/

structure GroupKind where
  Name : GoString
  NonCapturing : Bool
deriving DecidableEq, Repr

structure Quantifier where
  From : Int
  To : Option Int
deriving DecidableEq, Repr

inductive CharClassKind where
  | CharClassSingleChar (Escaped : Bool) (Char : GoString)
  | CharClassMetaChar (Char : GoString)
  | CharClassRange (Range : GoString)
  | CharClassPreset (Preset : GoString)
deriving DecidableEq, Repr

mutual
/-- The four implementations of `ast.Expr`; each is also an `ast.Node`. -/
inductive Expr where
  | Group (Kind : Option GroupKind) (Alternatives : List Alternative) (Quantifier : Option Quantifier)
  | CharClass (Expect : Bool) (Chars : List CharClassKind) (Quantifier : Option Quantifier)
  | Char (Escaped : Bool) (Char : GoString) (Quantifier : Option Quantifier)
  | MetaChar (Char : GoString) (Quantifier : Option Quantifier)
inductive Alternative where
  | mk (StartOfString : Bool) (Exprs : List Expr) (EndOfString : Bool)
end

structure Regexp where
  Alternatives : List Alternative

/-- The implementations of `ast.Node`. -/
inductive Node where
  | Regexp (n : Regexp)
  | Alternative (n : Alternative)
  | Expr (n : Expr)

/-! ## The validator (`generator.go`, lines 29-116) -/

structure validator where
  err : Option GoError
deriving DecidableEq, Repr

/-- The table string searched by `validator.Visit`. -/
def metaCharTable : GoString := goStr ".\\s\\S\\d\\D\\w\\W\\v"

def quantifierValidate (q : Option Quantifier) : Option GoError :=
  match q with
  | none => none
  | some q =>
    match q.To with
    | some qTo =>
      if qTo < q.From then
        some ⟨goStr "invalid quantifier range, expected from >= to, got (from=" ++ fmtInt q.From
          ++ goStr ", to=" ++ fmtInt qTo ++ goStr ")"⟩
      else none
    | none => none

def charClassRangeValidate (range : GoString) : Res (Option GoError) :=
  match Cut range (goStr "-") with
  | (_, _, false) => .panic "charClassRangeValidate: invalid class range"
  | (srcFrom, srcTo, true) =>
    match srcFrom, srcTo with
    | [f], [t] =>
      if t < f then
        .ok (some ⟨goStr "expected to >= from, got (from='" ++ [f] ++ goStr "', to='" ++ [t]
          ++ goStr "')"⟩)
      else .ok none
    | _, _ => .panic "charClassRangeValidate: invalid class range"

/-- The loop over `n.Chars` in the `ast.CharClass` case of `Visit`: the first offending
member sets the error and ends the visit. -/
def visitCharClassChars (vd : validator) (chars : List CharClassKind) : Res (validator × Bool) :=
  match chars with
  | [] => .ok (vd, true)
  | .CharClassRange range :: rest =>
    match charClassRangeValidate range with
    | .ok (some e) => .ok (⟨some ⟨goStr "invalid char class range: " ++ fmtW (some e)⟩⟩, false)
    | .ok none => visitCharClassChars vd rest
    | .panic m => .panic m
    | .hang => .hang
  | .CharClassMetaChar c :: rest =>
    if Index metaCharTable c = -1 then
      .ok (⟨some ⟨goStr "char class meta char '" ++ c ++ goStr "' is invalid"⟩⟩, false)
    else if c = goStr "\\v" then
      .ok (⟨some ⟨goStr "unimplemented char class meta char '\\v'"⟩⟩, false)
    else visitCharClassChars vd rest
  | .CharClassPreset _ :: _ =>
    .ok (⟨some ⟨goStr "unimplemented char class presets (e.g. [:alnum:])"⟩⟩, false)
  | .CharClassSingleChar _ _ :: rest => visitCharClassChars vd rest

/-- The method `(*validator).Visit`. The validator is a pointer receiver: the result carries
its state after the call, and the flag tells whether the returned `ast.Visitor` is
non-nil. -/
def validator.Visit (vd : validator) (n : Option Node) : Res (validator × Bool) :=
  match n with
  | none => .ok (vd, false)
  | some (.Expr (.MetaChar c q)) =>
    if Index metaCharTable c = -1 then
      .ok (⟨some ⟨goStr "meta char '" ++ c ++ goStr "' is invalid"⟩⟩, false)
    else
      match quantifierValidate q with
      | some e => .ok (⟨some ⟨goStr "invalid quantifier: " ++ fmtW (some e)⟩⟩, false)
      | none =>
        if c = goStr "\\v" then .ok (⟨some ⟨goStr "unimplemented meta char '\\v'"⟩⟩, false)
        else .ok (vd, true)
  | some (.Expr (.Char _ _ q)) =>
    match quantifierValidate q with
    | some e => .ok (⟨some ⟨goStr "invalid quantifier: " ++ fmtW (some e)⟩⟩, false)
    | none => .ok (vd, true)
  | some (.Expr (.CharClass _ chars _)) => visitCharClassChars vd chars
  | some _ => .ok (vd, true)

/-! ## `ast.Walk` (`ast.go`, lines 175-203) -/

/-- The closing `v.Visit(nil)` of `Walk`. -/
def walkEnd (v : validator) : Res validator :=
  (v.Visit none).bind fun r => .ok r.1

mutual
/-- `Walk` at an expression node. -/
def WalkExpr (v : validator) (e : Expr) : Res validator :=
  (v.Visit (some (.Expr e))).bind fun r =>
    if r.2 = false then .ok r.1
    else
      match e with
      | .Group _ alts _ => (WalkAlternatives r.1 alts).bind walkEnd
      | .CharClass _ _ _ => walkEnd r.1
      | .Char _ _ _ => walkEnd r.1
      | .MetaChar _ _ => walkEnd r.1
/-- `Walk` at an `*ast.Alternative`. -/
def WalkAlternative (v : validator) (a : Alternative) : Res validator :=
  (v.Visit (some (.Alternative a))).bind fun r =>
    if r.2 = false then .ok r.1
    else
      match a with
      | .mk _ exprs _ => (WalkExprs r.1 exprs).bind walkEnd
/-- The loop `for _, e := range n.Exprs { Walk(v, e) }`. -/
def WalkExprs (v : validator) (es : List Expr) : Res validator :=
  match es with
  | [] => .ok v
  | e :: rest => (WalkExpr v e).bind fun v1 => WalkExprs v1 rest
/-- The loop `for _, a := range n.Alternatives { Walk(v, a) }`. -/
def WalkAlternatives (v : validator) (alts : List Alternative) : Res validator :=
  match alts with
  | [] => .ok v
  | a :: rest => (WalkAlternative v a).bind fun v1 => WalkAlternatives v1 rest
end

/-- The function `ast.Walk`. -/
def Walk (v : validator) (node : Node) : Res validator :=
  match node with
  | .Regexp n =>
    (v.Visit (some (.Regexp n))).bind fun r =>
      if r.2 = false then .ok r.1
      else (WalkAlternatives r.1 n.Alternatives).bind walkEnd
  | .Alternative a => WalkAlternative v a
  | .Expr e => WalkExpr v e

/-! ## The generator (`generator.go`, lines 118-319) -/

/-- The oracle of nondeterministic choices: an infinite stream of raw draws. -/
abbrev Rand := Nat → Nat

/-- Go `rand.Intn`: panics unless `0 < n`, else some value of `[0, n)`; the raw draw at the
cursor decides which, and the cursor advances. -/
def Intn (n : Int) (rnd : Rand) (pos : Nat) : Res (Int × Nat) :=
  if n ≤ 0 then .panic "invalid argument to Intn"
  else .ok ((rnd pos : Int) % n, pos + 1)

structure QuantifierConstraint where
  MaxLen : Int
deriving DecidableEq, Repr

def anyChars : GoString :=
  goStr "abcdefghijklmnopqrstuvwxyzABCDEFGHIJKLMNOPQRSTUVWXYZ \t`~!@\"#№$;%^:&?*()-_=+'<>,.1234567890"
def wordChars : GoString :=
  goStr "abcdefghijklmnopqrstuvwxyzABCDEFGHIJKLMNOPQRSTUVWXYZ1234567890_"
def digitChars : GoString := goStr "1234567890"
def spaceChars : GoString := goStr " \t\n"
def nonWordChars : GoString := goStr " \t\n`~!@\"#№$;%^:&?*()-=+'<>,."
def nonDigitChars : GoString :=
  goStr "abcdefghijklmnopqrstuvwxyzABCDEFGHIJKLMNOPQRSTUVWXYZ \t\n`~!@\"#№$;%^:&?*()-_=+'<>,."
def nonSpaceChars : GoString :=
  goStr "abcdefghijklmnopqrstuvwxyzABCDEFGHIJKLMNOPQRSTUVWXYZ`~!@\"#№$;%^:&?*()-_=+'<>,.1234567890"

/-- The value of an `int` expression of Go whose exact result is `x`: 64-bit two's
complement, so a result outside `[-2^63, 2^63)` wraps around. -/
def wrapInt64 (x : Int) : Int :=
  (x + 9223372036854775808) % 18446744073709551616 - 9223372036854775808

def getSeqLen (q : Option Quantifier) (constraint : QuantifierConstraint) (rnd : Rand)
    (pos : Nat) : Res (Int × Nat) :=
  match q with
  | none => .ok (1, pos)
  | some q =>
    let minLen := q.From
    let maxLen :=
      match q.To with
      | some qTo => max minLen qTo
      | none => constraint.MaxLen
    (Intn (wrapInt64 (maxLen - minLen + 1)) rnd pos).bind fun r =>
      .ok (wrapInt64 (r.1 + minLen), r.2)

/-- The function `genChar`, on the fields `Char` and `Quantifier` of an `ast.Char`. -/
def genChar (char : GoString) (q : Option Quantifier) (contraints : QuantifierConstraint)
    (rnd : Rand) (pos : Nat) : Res (GoString × Nat) :=
  (getSeqLen q contraints rnd pos).bind fun r =>
    (Repeat char r.1).bind fun s => .ok (s, r.2)

/-- The loop of `makeRandCharsFromSeq`: `n` iterations remain. -/
def makeRandCharsLoop (n : Nat) (letters : GoString) (rnd : Rand) (pos : Nat) :
    Res (GoString × Nat) :=
  match n with
  | 0 => .ok ([], pos)
  | n + 1 =>
    (Intn letters.length rnd pos).bind fun r =>
      match letters[r.1.toNat]? with
      | none => .panic "index out of range"
      | some b => (makeRandCharsLoop n letters rnd r.2).bind fun rest => .ok (b :: rest.1, rest.2)

/-- The function `makeRandCharsFromSeq`; `sb.Grow` panics on a negative size. -/
def makeRandCharsFromSeq (sz : Int) (letters : GoString) (rnd : Rand) (pos : Nat) :
    Res (GoString × Nat) :=
  if sz < 0 then .panic "strings.Builder.Grow: negative count"
  else makeRandCharsLoop sz.toNat letters rnd pos

def genFromMetaChar (char : GoString) (q : Option Quantifier) (constraint : QuantifierConstraint)
    (rnd : Rand) (pos : Nat) : Res (GoString × Nat) :=
  (getSeqLen q constraint rnd pos).bind fun r =>
    if char = goStr "." then makeRandCharsFromSeq r.1 anyChars rnd r.2
    else if char = goStr "\\s" then makeRandCharsFromSeq r.1 spaceChars rnd r.2
    else if char = goStr "\\S" then makeRandCharsFromSeq r.1 nonSpaceChars rnd r.2
    else if char = goStr "\\d" then makeRandCharsFromSeq r.1 digitChars rnd r.2
    else if char = goStr "\\D" then makeRandCharsFromSeq r.1 nonDigitChars rnd r.2
    else if char = goStr "\\w" then makeRandCharsFromSeq r.1 wordChars rnd r.2
    else if char = goStr "\\W" then makeRandCharsFromSeq r.1 nonWordChars rnd r.2
    else if char = goStr "\\v" then .panic "genFromMetaChar: unimplemented \\v"
    else .panic "genFromMetaChar: unexpected char"

/-- The loop `for i := from; i <= to; i++` of `charsFromCharClassRange` over a `byte`
counter, which wraps modulo 256; `fuel` bounds the number of iterations looked at. -/
def charsFromCharClassRangeLoop (fuel : Nat) (i cTo : Nat) (sb : GoString) : Res GoString :=
  match fuel with
  | 0 => .hang
  | fuel + 1 =>
    if i ≤ cTo then charsFromCharClassRangeLoop fuel ((i + 1) % 256) cTo (sb ++ [i])
    else .ok sb

/-- The function `charsFromCharClassRange`. A terminating run of the loop makes at most 256
iterations and one final test, so a run that is still going after 257 steps never ends. -/
def charsFromCharClassRange (cFrom cTo : Nat) : Res GoString :=
  if cTo < cFrom then .panic "charsFromCharClassRange: to < from"
  else charsFromCharClassRangeLoop 257 cFrom cTo []

/-- Go `strings.IndexByte`. -/
def IndexByte (s : GoString) (c : Nat) : Int :=
  match s with
  | [] => -1
  | b :: t =>
    if b = c then 0
    else
      let i := IndexByte t c
      if i = -1 then -1 else i + 1

def charsWithExpect (targetChars expectChars : GoString) : GoString :=
  targetChars.filter fun ch => IndexByte expectChars ch = -1

/-- The loop `for b := range uniqChars` over a Go map: the iteration order is unspecified,
so each step takes the key the oracle points at among the keys not yet visited. -/
def mapRange (n : Nat) (keys : List Nat) (rnd : Rand) (pos : Nat) : GoString × Nat :=
  match n with
  | 0 => ([], pos)
  | n + 1 =>
    match keys[rnd pos % keys.length]? with
    | none => ([], pos)
    | some b =>
      let rest := mapRange n (keys.eraseIdx (rnd pos % keys.length)) rnd (pos + 1)
      (b :: rest.1, rest.2)

/-- The function `charUniq`: the keys of the map are the distinct bytes of `chars`. -/
def charUniq (chars : GoString) (rnd : Rand) (pos : Nat) : GoString × Nat :=
  mapRange chars.dedup.length chars.dedup rnd pos

/-- One iteration of the loop over `ccn.Chars` in `genFromCharClass`: the text the member
writes to `charSeqSB`. -/
def charClassKindChars (class_ : CharClassKind) : Res GoString :=
  match class_ with
  | .CharClassSingleChar _ c => .ok c
  | .CharClassRange range =>
    match Cut range (goStr "-") with
    | (_, _, false) => .panic "genFromCharClass: invalid class range"
    | (srcFrom, srcTo, true) =>
      match srcFrom, srcTo with
      | [f], [t] => charsFromCharClassRange f t
      | _, _ => .panic "genFromCharClass: invalid class range"
  | .CharClassMetaChar c =>
    if c = goStr "." then .ok anyChars
    else if c = goStr "\\s" then .ok spaceChars
    else if c = goStr "\\S" then .ok nonSpaceChars
    else if c = goStr "\\d" then .ok digitChars
    else if c = goStr "\\D" then .ok nonDigitChars
    else if c = goStr "\\w" then .ok wordChars
    else if c = goStr "\\W" then .ok nonWordChars
    else if c = goStr "\\v" then .panic "genFromCharClass: unimplemented \\v"
    else .ok []
  | .CharClassPreset _ => .panic "genFromCharClass: unimplemented CharClassPreset"

/-- The loop over `ccn.Chars` in `genFromCharClass`: the content of `charSeqSB`. -/
def charSeq (chars : List CharClassKind) : Res GoString :=
  match chars with
  | [] => .ok []
  | class_ :: rest =>
    (charClassKindChars class_).bind fun s => (charSeq rest).bind fun t => .ok (s ++ t)

/-- The function `genFromCharClass`, on the fields of an `ast.CharClass`. -/
def genFromCharClass (expect : Bool) (chars : List CharClassKind) (q : Option Quantifier)
    (constraint : QuantifierConstraint) (rnd : Rand) (pos : Nat) : Res (GoString × Nat) :=
  (getSeqLen q constraint rnd pos).bind fun r =>
    (charSeq chars).bind fun seq =>
      let resultSeq := charUniq seq rnd r.2
      let letters := if expect then charsWithExpect anyChars resultSeq.1 else resultSeq.1
      makeRandCharsFromSeq r.1 letters rnd resultSeq.2

mutual
/-- The function `genFromNode` at an `ast.Expr` value; the `ast.Group` case is the body of
`genFromGroup`. -/
def genFromExpr (e : Expr) (constraint : QuantifierConstraint) (rnd : Rand) (pos : Nat) :
    Res (GoString × Nat) :=
  match e with
  | .Char _ c q => genChar c q constraint rnd pos
  | .MetaChar c q => genFromMetaChar c q constraint rnd pos
  | .CharClass expect chars q => genFromCharClass expect chars q constraint rnd pos
  | .Group _ alts q =>
    (Intn alts.length rnd pos).bind fun sel =>
      (genFromAlternativeAt alts sel.1.toNat constraint rnd sel.2).bind fun chars =>
        (getSeqLen q constraint rnd chars.2).bind fun r =>
          (Repeat chars.1 r.1).bind fun s => .ok (s, r.2)
/-- The function `genFromalternative`: `strings.Join` of the texts of the expressions. -/
def genFromalternative (n : Alternative) (constraint : QuantifierConstraint) (rnd : Rand)
    (pos : Nat) : Res (GoString × Nat) :=
  match n with
  | .mk _ exprs _ => genFromExprs exprs constraint rnd pos
/-- The loop over `n.Exprs` in `genFromalternative`. -/
def genFromExprs (exprs : List Expr) (constraint : QuantifierConstraint) (rnd : Rand)
    (pos : Nat) : Res (GoString × Nat) :=
  match exprs with
  | [] => .ok ([], pos)
  | e :: rest =>
    (genFromExpr e constraint rnd pos).bind fun s =>
      (genFromExprs rest constraint rnd s.2).bind fun t => .ok (s.1 ++ t.1, t.2)
/-- The call `genFromNode(n.Alternatives[i], constraint)`; an index out of range panics. -/
def genFromAlternativeAt (alts : List Alternative) (i : Nat) (constraint : QuantifierConstraint)
    (rnd : Rand) (pos : Nat) : Res (GoString × Nat) :=
  match alts, i with
  | [], _ => .panic "index out of range"
  | a :: _, 0 => genFromalternative a constraint rnd pos
  | _ :: rest, i + 1 => genFromAlternativeAt rest i constraint rnd pos
end

/-- The function `genFromGroup`, on the fields of an `ast.Group`. -/
def genFromGroup (alts : List Alternative) (q : Option Quantifier)
    (constraint : QuantifierConstraint) (rnd : Rand) (pos : Nat) : Res (GoString × Nat) :=
  (Intn alts.length rnd pos).bind fun sel =>
    (genFromAlternativeAt alts sel.1.toNat constraint rnd sel.2).bind fun chars =>
      (getSeqLen q constraint rnd chars.2).bind fun r =>
        (Repeat chars.1 r.1).bind fun s => .ok (s, r.2)

def genFromRoot (n : Regexp) (constraint : QuantifierConstraint) (rnd : Rand) (pos : Nat) :
    Res (GoString × Nat) :=
  (Intn n.Alternatives.length rnd pos).bind fun sel =>
    genFromAlternativeAt n.Alternatives sel.1.toNat constraint rnd sel.2

def genFromNode (v : Node) (constraint : QuantifierConstraint) (rnd : Rand) (pos : Nat) :
    Res (GoString × Nat) :=
  match v with
  | .Regexp n => genFromRoot n constraint rnd pos
  | .Alternative n => genFromalternative n constraint rnd pos
  | .Expr e => genFromExpr e constraint rnd pos

/-- The function `New`, with `ast.ParseString` as a parameter. The first component is the
returned generator (`none` for a nil func), the second the returned error (`none` for nil).
The error of the validation branch formats the variable `err` of the parse step, which is
nil at that point. -/
def New (ParseString : GoString → Except GoError Regexp) (re : GoString)
    (constraint : QuantifierConstraint) :
    Res (Option (Rand → Nat → Res (GoString × Nat)) × Option GoError) :=
  match ParseString re with
  | .error err => .ok (none, some ⟨goStr "parse regex: " ++ fmtW (some err)⟩)
  | .ok root =>
    let err : Option GoError := none
    (Walk ⟨none⟩ (.Regexp root)).bind fun v =>
      match v.err with
      | some _ => .ok (none, some ⟨goStr "invalid regex: " ++ fmtW err⟩)
      | none => .ok (some (fun rnd pos => genFromNode (.Regexp root) constraint rnd pos), none)

/-! ## Traversal order and the vocabulary of the claims -/

mutual
/-- The expression nodes of the subtree at `e`, in the pre-order in which `Walk` visits
them. -/
def Expr.nodes (e : Expr) : List Expr :=
  match e with
  | .Group kind alts q => .Group kind alts q :: alternativesNodes alts
  | .CharClass expect chars q => [.CharClass expect chars q]
  | .Char escaped c q => [.Char escaped c q]
  | .MetaChar c q => [.MetaChar c q]
/-- The expression nodes below an alternative, in pre-order. -/
def Alternative.nodes (a : Alternative) : List Expr :=
  match a with
  | .mk _ exprs _ => exprsNodes exprs
/-- The expression nodes of a sequence of expressions, in pre-order. -/
def exprsNodes (exprs : List Expr) : List Expr :=
  match exprs with
  | [] => []
  | e :: rest => e.nodes ++ exprsNodes rest
/-- The expression nodes of a sequence of alternatives, in pre-order. -/
def alternativesNodes (alts : List Alternative) : List Expr :=
  match alts with
  | [] => []
  | a :: rest => a.nodes ++ alternativesNodes rest
end

/-- The expression nodes of the tree at `n`, in pre-order. -/
def Node.nodes (n : Node) : List Regen.Expr :=
  match n with
  | .Regexp r => alternativesNodes r.Alternatives
  | .Alternative a => a.nodes
  | .Expr e => e.nodes

/-- Visiting the nodes of a list one after the other with the same validator. -/
def visitAll (v : validator) (l : List Expr) : Res validator :=
  match l with
  | [] => .ok v
  | e :: rest => (v.Visit (some (.Expr e))).bind fun r => visitAll r.1 rest

/-- The text of a range has the form `x-y`: cutting it at the first `-` leaves one byte on
each side. -/
def rangeWellFormed (range : GoString) : Bool :=
  match Cut range (goStr "-") with
  | ([_], [_], true) => true
  | _ => false

/-- A range of two single-byte endpoints with `to < from` by ordinal value. -/
def rangeReversed (range : GoString) : Bool :=
  match Cut range (goStr "-") with
  | ([f], [t], true) => decide (t < f)
  | _ => false

/-- Every range of a character class has the form `x-y`. -/
def rangesWellFormed (e : Expr) : Bool :=
  match e with
  | .CharClass _ chars _ =>
    chars.all fun m =>
      match m with
      | .CharClassRange range => rangeWellFormed range
      | _ => true
  | _ => true

/-- A class member the validator is to reject: a vertical-tab meta character, a preset, a
reversed range. -/
def memberUnsupported (m : CharClassKind) : Bool :=
  match m with
  | .CharClassMetaChar c => decide (c = goStr "\\v")
  | .CharClassPreset _ => true
  | .CharClassRange range => rangeReversed range
  | .CharClassSingleChar _ _ => false

/-- A node the validator is to reject: a vertical-tab meta character, or a character class
with an unsupported member. -/
def unsupported (e : Expr) : Bool :=
  match e with
  | .MetaChar c _ => decide (c = goStr "\\v")
  | .CharClass _ chars _ => chars.any memberUnsupported
  | _ => false

/-- The `Char` fields of the meta characters at a node: of the node itself, or of the
members of a character class. -/
def metaChars (e : Expr) : List GoString :=
  match e with
  | .MetaChar c _ => [c]
  | .CharClass _ chars _ =>
    chars.filterMap fun m =>
      match m with
      | .CharClassMetaChar c => some c
      | _ => none
  | _ => []

/-- The seven implemented meta characters. -/
def implementedMetaChars : List GoString :=
  [goStr ".", goStr "\\s", goStr "\\S", goStr "\\d", goStr "\\D", goStr "\\w", goStr "\\W"]

/-- The eight texts the `MetaChar` rule of the tokenizer matches. -/
def lexerMetaChars : List GoString := implementedMetaChars ++ [goStr "\\v"]

/-- The alphabet table of a meta character family. -/
def familyChars (c : GoString) : GoString :=
  if c = goStr "." then anyChars
  else if c = goStr "\\s" then spaceChars
  else if c = goStr "\\S" then nonSpaceChars
  else if c = goStr "\\d" then digitChars
  else if c = goStr "\\D" then nonDigitChars
  else if c = goStr "\\w" then wordChars
  else if c = goStr "\\W" then nonWordChars
  else []

/-- The set a class member stands for: a single character verbatim, every byte of
`[from, to]` for a range, the family table for a meta character. -/
def memberSet (m : CharClassKind) (b : Nat) : Prop :=
  match m with
  | .CharClassSingleChar _ c => b ∈ c
  | .CharClassRange range =>
    match Cut range (goStr "-") with
    | ([f], [t], true) => f ≤ b ∧ b ≤ t
    | _ => False
  | .CharClassMetaChar c => b ∈ familyChars c
  | .CharClassPreset _ => False

/-- The slice `charsArr` that the loop of `genFromalternative` fills: the texts of the
expressions, in order; `genFromalternative` returns its `strings.Join` with the empty
separator. -/
def charsArr (exprs : List Expr) (constraint : QuantifierConstraint) (rnd : Rand) (pos : Nat) :
    Res (List GoString × Nat) :=
  match exprs with
  | [] => .ok ([], pos)
  | e :: rest =>
    (genFromExpr e constraint rnd pos).bind fun s =>
      (charsArr rest constraint rnd s.2).bind fun t => .ok (s.1 :: t.1, t.2)

/-- A repetition count the quantifier contract permits: exactly 1 without a quantifier,
else a count of `[from, to]`, with the configured upper bound for an absent `to`. -/
def countPermitted (q : Option Quantifier) (constraint : QuantifierConstraint) (k : Int) :
    Prop :=
  match q with
  | none => k = 1
  | some q =>
    match q.To with
    | some qTo => q.From ≤ k ∧ k ≤ max q.From qTo
    | none => q.From ≤ k ∧ k ≤ constraint.MaxLen

/-- The value is one of Go's `int`: it lies in `[-2^63, 2^63)`. -/
def isInt64 (x : Int) : Prop := -9223372036854775808 ≤ x ∧ x ≤ 9223372036854775807

/-- The fields of the quantifier hold values of Go's `int`. -/
def goInts (q : Option Quantifier) : Prop :=
  match q with
  | none => True
  | some q =>
    isInt64 q.From ∧
      match q.To with
      | some qTo => isInt64 qTo
      | none => True

/-- The configuration contract: the upper bound is a value of Go's `int` and is not
negative (`main` refuses a negative `-quantifier-upper-bound`). -/
def configOk (constraint : QuantifierConstraint) : Prop :=
  0 ≤ constraint.MaxLen ∧ constraint.MaxLen ≤ 9223372036854775807

/-! ## `Quantifier.Capture` (`ast.go`, lines 99-142) -/

/-- The value of a string of decimal digits; `none` when a byte is not a digit. -/
def digitsValue (s : GoString) : Option Nat :=
  s.foldl (fun acc b =>
    match acc with
    | none => none
    | some n => if 48 ≤ b ∧ b ≤ 57 then some (n * 10 + (b - 48)) else none) (some 0)

/-- Go `strconv.Atoi`: an optional sign and at least one decimal digit, with a value that
fits in a 64-bit `int`; anything else is an error. -/
def Atoi (s : GoString) : Except GoError Int :=
  let syntaxErr : GoError := ⟨goStr "strconv.Atoi: parsing \"" ++ s ++ goStr "\": invalid syntax"⟩
  let rangeErr : GoError :=
    ⟨goStr "strconv.Atoi: parsing \"" ++ s ++ goStr "\": value out of range"⟩
  let neg : Bool := s.head? = some 45
  let body : GoString := if s.head? = some 45 ∨ s.head? = some 43 then s.drop 1 else s
  if body = [] then .error syntaxErr
  else
    match digitsValue body with
    | none => .error syntaxErr
    | some n =>
      let v : Int := if neg then -(n : Int) else (n : Int)
      if v < -9223372036854775808 ∨ 9223372036854775807 < v then .error rangeErr
      else .ok v

/-- The method `(*Quantifier).Capture`: the receiver after the call and the returned error.
Indexing an empty `values` and slicing a one-byte text panic. -/
def Quantifier.Capture (q : Quantifier) (values : List GoString) :
    Res (Quantifier × Option GoError) :=
  match values with
  | [] => .panic "index out of range"
  | v :: _ =>
    if v = goStr "" then .ok (⟨1, some 1⟩, none)
    else if v = goStr "*" then .ok (q, none)
    else if v = goStr "+" then .ok (⟨1, q.To⟩, none)
    else if v = goStr "?" then .ok (⟨q.From, some 1⟩, none)
    else if v.length < 2 then .panic "slice bounds out of range"
    else
      let rangeWithoutBrackets := (v.drop 1).take (v.length - 2)
      let cut := Cut rangeWithoutBrackets (goStr ",")
      match (if cut.2.2 then some (cut.1, cut.2.1)
          else
            match Atoi rangeWithoutBrackets with
            | .error _ => none
            | .ok _ => some (rangeWithoutBrackets, rangeWithoutBrackets)) with
      | none => .ok (q, some ⟨goStr "invalid quantifier: got " ++ v⟩)
      | some (srcFrom, srcTo) =>
        match Atoi srcFrom with
        | .error err => .ok (q, some ⟨goStr "invalid 'from': " ++ fmtW (some err)⟩)
        | .ok qFrom =>
          if srcTo = goStr "" then .ok (⟨qFrom, q.To⟩, none)
          else
            match Atoi srcTo with
            | .error err => .ok (⟨qFrom, q.To⟩, some ⟨goStr "invalid 'to': " ++ fmtW (some err)⟩)
            | .ok qTo => .ok (⟨qFrom, some qTo⟩, none)

/-! ## The grammar of alternatives (`ast.go`, lines 10-12 and 27-31; `parser.go`) -/

/-- The token types of `lexdef` that the grammar of alternatives and groups names. -/
inductive TokenType where
  | Alternative
  | Char
  | GroupBegin
  | GroupName
  | GroupNonCapturing
  | GroupEnd
  | Other
deriving DecidableEq, Repr

structure Token where
  type : TokenType
  value : GoString
deriving DecidableEq, Repr

/-- The struct tag `(@@ (Alternative @@)?)?` of the fields `Regexp.Alternatives` and
`Group.Alternatives`, as the parsing library reads it: an optional group holding one
`*Alternative`, optionally followed by one `Alternative` token and one more `*Alternative`;
every `@@` appends its match to the slice. The parser of one `*Alternative` is a
parameter. The result is the slice and the tokens left. -/
def parseAlternatives (parseAlternative : List Token → Option (Alternative × List Token))
    (toks : List Token) : List Alternative × List Token :=
  match parseAlternative toks with
  | none => ([], toks)
  | some (a, rest) =>
    match rest with
    | [] => ([a], rest)
    | t :: rest1 =>
      if t.type = TokenType.Alternative then
        match parseAlternative rest1 with
        | some (b, rest2) => ([a, b], rest2)
        | none => ([a], rest)
      else ([a], rest)

/-- The root of `ParseString`: the field `Regexp.Alternatives`, then the end of the input;
tokens left over are a syntax error. -/
def parseRegexp (parseAlternative : List Token → Option (Alternative × List Token))
    (toks : List Token) : Except GoError Regexp :=
  match parseAlternatives parseAlternative toks with
  | (alts, []) => .ok ⟨alts⟩
  | (_, t :: _) => .error ⟨goStr "unexpected token \"" ++ t.value ++ goStr "\""⟩

/-- The fields `Kind` and `Alternatives` of `Group`, tag
`GroupBegin @(GroupName | GroupNonCapturing)?` and `(@@ (Alternative @@)?)? GroupEnd`:
the alternatives of the group and the tokens after `GroupEnd`, or `none` when the tokens
do not match. -/
def parseGroupAlternatives (parseAlternative : List Token → Option (Alternative × List Token))
    (toks : List Token) : Option (List Alternative × List Token) :=
  match toks with
  | [] => none
  | t :: rest =>
    if t.type = TokenType.GroupBegin then
      let body :=
        match rest with
        | k :: rest1 =>
          if k.type = TokenType.GroupName ∨ k.type = TokenType.GroupNonCapturing then rest1
          else rest
        | [] => rest
      match parseAlternatives parseAlternative body with
      | (alts, e :: rest2) => if e.type = TokenType.GroupEnd then some (alts, rest2) else none
      | (_, []) => none
    else none

/-- The tag `@@*` of `Alternative.Exprs` on a run of `Char` tokens: the literals of the run,
up to the first token of another type. -/
def parseLiteralAlternative (toks : List Token) : Option (Alternative × List Token) :=
  some (.mk false ((toks.takeWhile fun t => t.type = TokenType.Char).map
      fun t => Expr.Char false t.value none) false,
    toks.dropWhile fun t => t.type = TokenType.Char)

/-- The tokens of a pattern made of unescaped literal characters, `|`, `(` and `)`. -/
def tokensOf (s : String) : List Token :=
  s.toList.map fun c =>
    if c = '|' then ⟨.Alternative, goStr "|"⟩
    else if c = '(' then ⟨.GroupBegin, goStr "("⟩
    else if c = ')' then ⟨.GroupEnd, goStr ")"⟩
    else ⟨.Char, utf8Bytes c⟩

/-! ## The `CharClassRange` rule of the tokenizer (`parser.go`, line 34) -/

/-- An optional backslash. -/
def escapeBytes (escaped : Bool) : GoString := if escaped then goStr "\\" else []

/-- The texts the rule accepts, one shape per alternative of the rule: a first end `.` or
`\.`, a `-`, and a second end `\.` or `[^\]]`, where `.` is any character but a newline. -/
def CharClassRangeShape (r : GoString) : Prop :=
  ∃ (x y : Char) (ex ey : Bool), x ≠ '\n' ∧ (ey = true → y ≠ '\n') ∧ (ey = false → y ≠ ']') ∧
    r = escapeBytes ex ++ utf8Bytes x ++ goStr "-" ++ escapeBytes ey ++ utf8Bytes y

/-! ## Example syntax trees -/

/-- An unquantified or quantified literal, as the parser builds it for an unescaped
character. -/
def lit (s : String) (q : Option Quantifier) : Expr := .Char false (goStr s) q

/-- A root with the single alternative `exprs`, without anchors. -/
def rootOf (exprs : List Expr) : Regexp := ⟨[.mk false exprs false]⟩

/-- A stream of draws that starts with `l` and continues with zeros. -/
def draws (l : List Nat) : Rand := fun i => l.getD i 0

/-! ## Lemmas on results and on the traversal -/

theorem Res.bind_ok {α β : Type} (a : α) (f : α → Res β) : (Res.ok a).bind f = f a := rfl

theorem Res.bind_panic {α β : Type} (m : String) (f : α → Res β) :
    (Res.panic m : Res α).bind f = .panic m := rfl

theorem Res.bind_hang {α β : Type} (f : α → Res β) : (Res.hang : Res α).bind f = .hang := rfl

theorem bind_walkEnd (r : Res validator) : r.bind walkEnd = r := by
  cases r <;> rfl

theorem visitAll_append (v : validator) (l1 l2 : List Expr) :
    visitAll v (l1 ++ l2) = (visitAll v l1).bind fun v1 => visitAll v1 l2 := by
  induction l1 generalizing v with
  | nil => rfl
  | cons e rest ih =>
    simp only [List.cons_append, visitAll]
    cases h : v.Visit (some (.Expr e)) with
    | ok r => exact ih r.1
    | panic m => rfl
    | hang => rfl

theorem visit_leaf (v : validator) (e : Expr) :
    ((v.Visit (some (.Expr e))).bind fun r => if r.2 = false then Res.ok r.1 else walkEnd r.1)
      = visitAll v [e] := by
  rw [visitAll]
  cases h : v.Visit (some (.Expr e)) with
  | ok r => cases hr : r.2 <;> simp [Res.bind_ok, visitAll, walkEnd, validator.Visit, hr]
  | panic m => rfl
  | hang => rfl

mutual
theorem WalkExpr_eq (v : validator) (e : Expr) : WalkExpr v e = visitAll v e.nodes := by
  cases e with
  | Group kind alts q =>
    rw [WalkExpr, Expr.nodes, visitAll]
    simp only [validator.Visit, Res.bind_ok, bind_walkEnd]
    simpa using WalkAlternatives_eq v alts
  | CharClass expect chars q =>
    rw [WalkExpr, Expr.nodes]
    exact visit_leaf v _
  | Char escaped c q =>
    rw [WalkExpr, Expr.nodes]
    exact visit_leaf v _
  | MetaChar c q =>
    rw [WalkExpr, Expr.nodes]
    exact visit_leaf v _
theorem WalkAlternative_eq (v : validator) (a : Alternative) :
    WalkAlternative v a = visitAll v a.nodes := by
  cases a with
  | mk s exprs e =>
    rw [WalkAlternative, Alternative.nodes]
    simp only [validator.Visit, Res.bind_ok, bind_walkEnd]
    simpa using WalkExprs_eq v exprs
theorem WalkExprs_eq (v : validator) (es : List Expr) :
    WalkExprs v es = visitAll v (exprsNodes es) := by
  cases es with
  | nil => rw [WalkExprs, exprsNodes, visitAll]
  | cons e rest =>
    rw [WalkExprs, exprsNodes, visitAll_append, WalkExpr_eq v e]
    congr 1
    funext v1
    exact WalkExprs_eq v1 rest
theorem WalkAlternatives_eq (v : validator) (alts : List Alternative) :
    WalkAlternatives v alts = visitAll v (alternativesNodes alts) := by
  cases alts with
  | nil => rw [WalkAlternatives, alternativesNodes, visitAll]
  | cons a rest =>
    rw [WalkAlternatives, alternativesNodes, visitAll_append, WalkAlternative_eq v a]
    congr 1
    funext v1
    exact WalkAlternatives_eq v1 rest
end

theorem Walk_eq (v : validator) (n : Node) : Walk v n = visitAll v n.nodes := by
  cases n with
  | Regexp r =>
    simp only [Walk, Node.nodes, validator.Visit, Res.bind_ok, bind_walkEnd]
    simpa using WalkAlternatives_eq v r.Alternatives
  | Alternative a => exact WalkAlternative_eq v a
  | Expr e => exact WalkExpr_eq v e


theorem charClassRangeValidate_reversed (range : GoString) (h : rangeReversed range = true) :
    ∃ e, charClassRangeValidate range = .ok (some e) := by
  unfold rangeReversed at h
  unfold charClassRangeValidate
  generalize Cut range (goStr "-") = cut at h ⊢
  rcases cut with ⟨f, t, b⟩
  cases b <;> rcases f with _ | ⟨f1, _ | _⟩ <;> rcases t with _ | ⟨t1, _ | _⟩ <;> simp_all

theorem charClassRangeValidate_wellFormed (range : GoString) (h : rangeWellFormed range = true) :
    ∃ o, charClassRangeValidate range = .ok o := by
  unfold rangeWellFormed at h
  unfold charClassRangeValidate
  generalize Cut range (goStr "-") = cut at h ⊢
  rcases cut with ⟨f, t, b⟩
  cases b <;> rcases f with _ | ⟨f1, _ | _⟩ <;> rcases t with _ | ⟨t1, _ | _⟩ <;> simp_all
  split <;> simp

theorem visitCharClassChars_cases (v : validator) (chars : List CharClassKind)
    (r : validator × Bool) (h : visitCharClassChars v chars = .ok r) :
    r = (v, true) ∨ ∃ e, r = (⟨some e⟩, false) := by
  induction chars with
  | nil => left; simpa [visitCharClassChars] using h.symm
  | cons m rest ih =>
    cases m with
    | CharClassSingleChar esc c => exact ih (by simpa [visitCharClassChars] using h)
    | CharClassPreset p =>
      right
      simp only [visitCharClassChars, Res.ok.injEq] at h
      exact ⟨_, h.symm⟩
    | CharClassMetaChar c =>
      simp only [visitCharClassChars] at h
      split at h
      · right; simp only [Res.ok.injEq] at h; exact ⟨_, h.symm⟩
      · split at h
        · right; simp only [Res.ok.injEq] at h; exact ⟨_, h.symm⟩
        · exact ih h
    | CharClassRange range =>
      simp only [visitCharClassChars] at h
      split at h
      · right; simp only [Res.ok.injEq] at h; exact ⟨_, h.symm⟩
      · exact ih h
      · cases h
      · cases h

theorem Visit_cases (v : validator) (e : Expr) (r : validator × Bool)
    (h : v.Visit (some (.Expr e)) = .ok r) :
    r = (v, true) ∨ ∃ err, r = (⟨some err⟩, false) := by
  cases e with
  | Group kind alts q => left; simpa [validator.Visit] using h.symm
  | CharClass expect chars q => exact visitCharClassChars_cases v chars r (by simpa [validator.Visit] using h)
  | Char esc c q =>
    simp only [validator.Visit] at h
    split at h
    · right; simp only [Res.ok.injEq] at h; exact ⟨_, h.symm⟩
    · left; simpa using h.symm
  | MetaChar c q =>
    simp only [validator.Visit] at h
    split at h
    · right; simp only [Res.ok.injEq] at h; exact ⟨_, h.symm⟩
    · split at h
      · right; simp only [Res.ok.injEq] at h; exact ⟨_, h.symm⟩
      · split at h
        · right; simp only [Res.ok.injEq] at h; exact ⟨_, h.symm⟩
        · left; simpa using h.symm

theorem visitCharClassChars_unsupported (v : validator) (chars : List CharClassKind)
    (r : validator × Bool) (hu : chars.any memberUnsupported = true)
    (h : visitCharClassChars v chars = .ok r) : ∃ err, r.1.err = some err := by
  induction chars with
  | nil => simp at hu
  | cons m rest ih =>
    rw [List.any_cons, Bool.or_eq_true] at hu
    cases m with
    | CharClassSingleChar esc c =>
      simp only [memberUnsupported, Bool.false_eq_true, false_or] at hu
      exact ih hu (by simpa [visitCharClassChars] using h)
    | CharClassPreset p =>
      simp only [visitCharClassChars, Res.ok.injEq] at h
      exact ⟨_, by rw [← h]⟩
    | CharClassMetaChar c =>
      simp only [visitCharClassChars] at h
      split at h
      · simp only [Res.ok.injEq] at h; exact ⟨_, by rw [← h]⟩
      · split at h
        · simp only [Res.ok.injEq] at h; exact ⟨_, by rw [← h]⟩
        · rename_i hc
          simp only [memberUnsupported, hc, decide_False, Bool.false_eq_true, false_or] at hu
          exact ih hu h
    | CharClassRange range =>
      simp only [visitCharClassChars] at h
      split at h
      · simp only [Res.ok.injEq] at h; exact ⟨_, by rw [← h]⟩
      · rename_i hv
        rcases hu with hu | hu
        · obtain ⟨e, he⟩ := charClassRangeValidate_reversed range hu
          rw [he] at hv
          cases hv
        · exact ih hu h
      · cases h
      · cases h

theorem Index_table_v : Index metaCharTable (goStr "\\v") = 13 := by decide

theorem Visit_unsupported (v : validator) (e : Expr) (r : validator × Bool)
    (hu : unsupported e = true) (h : v.Visit (some (.Expr e)) = .ok r) :
    ∃ err, r.1.err = some err := by
  cases e with
  | Group kind alts q => simp [unsupported] at hu
  | Char esc c q => simp [unsupported] at hu
  | CharClass expect chars q =>
    exact visitCharClassChars_unsupported v chars r hu (by simpa [validator.Visit] using h)
  | MetaChar c q =>
    simp only [unsupported, decide_eq_true_eq] at hu
    subst hu
    simp only [validator.Visit, Index_table_v] at h
    split at h
    · simp only [Res.ok.injEq] at h; exact ⟨_, by rw [← h]⟩
    · split at h
      · simp only [Res.ok.injEq] at h; exact ⟨_, by rw [← h]⟩
      · simp only [↓reduceIte, Res.ok.injEq] at h; exact ⟨_, by rw [← h]⟩

theorem visitCharClassChars_total (v : validator) (chars : List CharClassKind)
    (hw : rangesWellFormed (.CharClass false chars none) = true) :
    ∃ r, visitCharClassChars v chars = .ok r := by
  induction chars with
  | nil => exact ⟨_, rfl⟩
  | cons m rest ih =>
    simp only [rangesWellFormed, List.all_cons, Bool.and_eq_true] at hw ih
    cases m with
    | CharClassSingleChar esc c => simpa [visitCharClassChars] using ih hw.2
    | CharClassPreset p => exact ⟨_, rfl⟩
    | CharClassMetaChar c =>
      simp only [visitCharClassChars]
      split
      · exact ⟨_, rfl⟩
      · split
        · exact ⟨_, rfl⟩
        · exact ih hw.2
    | CharClassRange range =>
      obtain ⟨o, ho⟩ := charClassRangeValidate_wellFormed range hw.1
      simp only [visitCharClassChars, ho]
      cases o with
      | none => exact ih hw.2
      | some e => exact ⟨_, rfl⟩

theorem Visit_total (v : validator) (e : Expr) (hw : rangesWellFormed e = true) :
    ∃ r, v.Visit (some (.Expr e)) = .ok r := by
  cases e with
  | Group kind alts q => exact ⟨_, rfl⟩
  | Char esc c q =>
    simp only [validator.Visit]
    split <;> exact ⟨_, rfl⟩
  | CharClass expect chars q =>
    simpa [validator.Visit] using visitCharClassChars_total v chars hw
  | MetaChar c q =>
    simp only [validator.Visit]
    split
    · exact ⟨_, rfl⟩
    · split
      · exact ⟨_, rfl⟩
      · split <;> exact ⟨_, rfl⟩


theorem visitCharClassChars_accept (v : validator) (chars : List CharClassKind)
    (r : validator × Bool) (h : visitCharClassChars v chars = .ok r) (hr : r.1.err = none) :
    ∀ c, CharClassKind.CharClassMetaChar c ∈ chars →
      Index metaCharTable c ≠ -1 ∧ c ≠ goStr "\\v" := by
  induction chars with
  | nil => intro c hc; simp at hc
  | cons m rest ih =>
    cases m with
    | CharClassSingleChar esc c =>
      intro c' hc'
      simp only [List.mem_cons, reduceCtorEq, false_or] at hc'
      exact ih (by simpa [visitCharClassChars] using h) c' hc'
    | CharClassPreset p =>
      simp only [visitCharClassChars, Res.ok.injEq] at h
      rw [← h] at hr
      cases hr
    | CharClassMetaChar c =>
      simp only [visitCharClassChars] at h
      split at h
      · simp only [Res.ok.injEq] at h; rw [← h] at hr; cases hr
      · split at h
        · simp only [Res.ok.injEq] at h; rw [← h] at hr; cases hr
        · rename_i h1 h2
          intro c' hc'
          simp only [List.mem_cons, CharClassKind.CharClassMetaChar.injEq] at hc'
          rcases hc' with rfl | hc'
          · exact ⟨h1, h2⟩
          · exact ih h c' hc'
    | CharClassRange range =>
      simp only [visitCharClassChars] at h
      split at h
      · simp only [Res.ok.injEq] at h; rw [← h] at hr; cases hr
      · intro c' hc'
        simp only [List.mem_cons, reduceCtorEq, false_or] at hc'
        exact ih h c' hc'
      · cases h
      · cases h

theorem Visit_accept (v : validator) (e : Expr) (r : validator × Bool)
    (h : v.Visit (some (.Expr e)) = .ok r) (hr : r.1.err = none) :
    ∀ c ∈ metaChars e, Index metaCharTable c ≠ -1 ∧ c ≠ goStr "\\v" := by
  cases e with
  | Group kind alts q => intro c hc; simp [metaChars] at hc
  | Char esc c q => intro c hc; simp [metaChars] at hc
  | CharClass expect chars q =>
    intro c hc
    simp only [metaChars, List.mem_filterMap] at hc
    obtain ⟨m, hm, hmc⟩ := hc
    cases m with
    | CharClassMetaChar c' =>
      simp only [Option.some.injEq] at hmc
      subst hmc
      exact visitCharClassChars_accept v chars r (by simpa [validator.Visit] using h) hr _ hm
    | CharClassSingleChar esc c' => simp at hmc
    | CharClassPreset p => simp at hmc
    | CharClassRange range => simp at hmc
  | MetaChar c q =>
    intro c' hc'
    simp only [metaChars, List.mem_singleton] at hc'
    subst hc'
    simp only [validator.Visit] at h
    split at h
    · simp only [Res.ok.injEq] at h; rw [← h] at hr; cases hr
    · split at h
      · simp only [Res.ok.injEq] at h; rw [← h] at hr; cases hr
      · split at h
        · simp only [Res.ok.injEq] at h; rw [← h] at hr; cases hr
        · rename_i h1 _ _ h2
          exact ⟨h1, h2⟩

/-! ### Folding `Visit` over the nodes -/

theorem visitAll_sticky (l : List Expr) (v v1 : validator) (h : visitAll v l = .ok v1)
    (hv : v.err ≠ none) : v1.err ≠ none := by
  induction l generalizing v with
  | nil => simp only [visitAll, Res.ok.injEq] at h; rw [← h]; exact hv
  | cons e rest ih =>
    rw [visitAll] at h
    cases hvis : v.Visit (some (.Expr e)) with
    | ok r =>
      rw [hvis, Res.bind_ok] at h
      refine ih r.1 h ?_
      rcases Visit_cases v e r hvis with rfl | ⟨err, rfl⟩
      · exact hv
      · simp
    | panic m => rw [hvis] at h; cases h
    | hang => rw [hvis] at h; cases h

theorem visitAll_total (l : List Expr) (v : validator)
    (hw : ∀ e ∈ l, rangesWellFormed e = true) : ∃ v1, visitAll v l = .ok v1 := by
  induction l generalizing v with
  | nil => exact ⟨v, rfl⟩
  | cons e rest ih =>
    obtain ⟨r, hr⟩ := Visit_total v e (hw e (List.mem_cons_self _ _))
    rw [visitAll, hr, Res.bind_ok]
    exact ih r.1 fun e1 he1 => hw e1 (List.mem_cons_of_mem _ he1)

theorem visitAll_unsupported (l : List Expr) (v v1 : validator) (h : visitAll v l = .ok v1)
    (hu : ∃ e ∈ l, unsupported e = true) : v1.err ≠ none := by
  induction l generalizing v with
  | nil => obtain ⟨e, he, _⟩ := hu; simp at he
  | cons e rest ih =>
    rw [visitAll] at h
    cases hvis : v.Visit (some (.Expr e)) with
    | ok r =>
      rw [hvis, Res.bind_ok] at h
      obtain ⟨e1, he1, hu1⟩ := hu
      rcases List.mem_cons.mp he1 with rfl | hmem
      · obtain ⟨err, herr⟩ := Visit_unsupported v e1 r hu1 hvis
        exact visitAll_sticky rest r.1 v1 h (by rw [herr]; simp)
      · exact ih r.1 h ⟨e1, hmem, hu1⟩
    | panic m => rw [hvis] at h; cases h
    | hang => rw [hvis] at h; cases h

theorem visitAll_accept (l : List Expr) (v v1 : validator) (h : visitAll v l = .ok v1)
    (hv : v1.err = none) :
    ∀ e ∈ l, ∀ c ∈ metaChars e, Index metaCharTable c ≠ -1 ∧ c ≠ goStr "\\v" := by
  induction l generalizing v with
  | nil => intro e he; simp at he
  | cons e rest ih =>
    rw [visitAll] at h
    cases hvis : v.Visit (some (.Expr e)) with
    | ok r =>
      rw [hvis, Res.bind_ok] at h
      intro e1 he1
      rcases List.mem_cons.mp he1 with rfl | hmem
      · refine Visit_accept v e1 r hvis ?_
        by_contra hne
        exact visitAll_sticky rest r.1 v1 h hne hv
      · exact ih r.1 h e1 hmem
    | panic m => rw [hvis] at h; cases h
    | hang => rw [hvis] at h; cases h

/-! ## Lemmas on the generator -/

theorem genFromRoot_single (a : Alternative) (c : QuantifierConstraint) (rnd : Rand) (pos : Nat) :
    genFromRoot ⟨[a]⟩ c rnd pos = genFromalternative a c rnd (pos + 1) := by
  simp [genFromRoot, Intn, Res.bind, genFromAlternativeAt]

theorem wrapInt64_of_isInt64 (x : Int) (h0 : -9223372036854775808 ≤ x)
    (h1 : x ≤ 9223372036854775807) : wrapInt64 x = x := by
  unfold wrapInt64
  omega

theorem getSeqLen_bounded (qFrom qTo : Int) (c : QuantifierConstraint) (rnd : Rand) (pos : Nat)
    (h : qFrom ≤ qTo) (hf : -9223372036854775808 ≤ qFrom) (ht : qTo ≤ 9223372036854775807)
    (hspan : qTo - qFrom < 9223372036854775807) :
    getSeqLen (some ⟨qFrom, some qTo⟩) c rnd pos
      = .ok ((rnd pos : Int) % (qTo - qFrom + 1) + qFrom, pos + 1) := by
  have h1 : max qFrom qTo = qTo := max_eq_right h
  have h2 : ¬ (qTo - qFrom + 1 ≤ 0) := by omega
  have hw : wrapInt64 (qTo - qFrom + 1) = qTo - qFrom + 1 :=
    wrapInt64_of_isInt64 _ (by omega) (by omega)
  have hm0 := Int.emod_nonneg (rnd pos : Int) (b := qTo - qFrom + 1) (by omega)
  have hm1 := Int.emod_lt_of_pos (rnd pos : Int) (b := qTo - qFrom + 1) (by omega)
  have hw2 : wrapInt64 ((rnd pos : Int) % (qTo - qFrom + 1) + qFrom)
      = (rnd pos : Int) % (qTo - qFrom + 1) + qFrom :=
    wrapInt64_of_isInt64 _ (by omega) (by omega)
  simp [getSeqLen, Intn, Res.bind, h1, h2, hw, hw2]

theorem length_flatten_replicate (k : Nat) (s : GoString) :
    ((List.replicate k s).flatten).length = k * s.length := by
  induction k with
  | zero => simp
  | succ n ih => simp [List.replicate_succ, ih, Nat.succ_mul, Nat.add_comm]

theorem Repeat_ofNat (s : GoString) (k : Nat) :
    Repeat s (k : Int) = .ok (List.replicate k s).flatten := by
  simp [Repeat]

theorem genFromExprs_literals (lits : List (Bool × GoString)) (c : QuantifierConstraint)
    (rnd : Rand) (pos : Nat) :
    genFromExprs (lits.map fun l => Expr.Char l.1 l.2 none) c rnd pos
      = .ok ((lits.map Prod.snd).flatten, pos) := by
  induction lits with
  | nil => simp [genFromExprs]
  | cons l rest ih =>
    simp [genFromExprs, genFromExpr, genChar, getSeqLen, Repeat, Res.bind, ih]

theorem makeRandCharsLoop_spec (n : Nat) (letters : GoString) (rnd : Rand) (pos : Nat)
    (out : GoString) (pos1 : Nat) (h : makeRandCharsLoop n letters rnd pos = .ok (out, pos1)) :
    out.length = n ∧ ∀ b ∈ out, b ∈ letters := by
  induction n generalizing pos out with
  | zero =>
    simp only [makeRandCharsLoop, Res.ok.injEq, Prod.mk.injEq] at h
    rw [← h.1]; simp
  | succ n ih =>
    rw [makeRandCharsLoop] at h
    cases hi : Intn letters.length rnd pos with
    | ok r =>
      rw [hi, Res.bind_ok] at h
      cases hb : letters[r.1.toNat]? with
      | none => rw [hb] at h; cases h
      | some b =>
        rw [hb] at h
        dsimp only at h
        cases hrest : makeRandCharsLoop n letters rnd r.2 with
        | ok rest =>
          rw [hrest, Res.bind_ok] at h
          simp only [Res.ok.injEq, Prod.mk.injEq] at h
          obtain ⟨hl, hm⟩ := ih r.2 rest.1 (by rw [hrest, ← h.2])
          rw [← h.1]
          refine ⟨by simp [hl], ?_⟩
          intro b1 hb1
          rcases List.mem_cons.mp hb1 with rfl | hb1
          · exact List.getElem?_mem hb
          · exact hm b1 hb1
        | panic m => rw [hrest] at h; cases h
        | hang => rw [hrest] at h; cases h
    | panic m => rw [hi] at h; cases h
    | hang => rw [hi] at h; cases h

theorem makeRandCharsLoop_total (n : Nat) (letters : GoString) (rnd : Rand) (pos : Nat)
    (hne : letters ≠ []) : ∃ out pos1, makeRandCharsLoop n letters rnd pos = .ok (out, pos1) := by
  induction n generalizing pos with
  | zero => exact ⟨[], pos, rfl⟩
  | succ n ih =>
    have hlen : 0 < letters.length := List.length_pos.mpr hne
    have hpos : (0 : Int) < (letters.length : Int) := by exact_mod_cast hlen
    have hi : Intn letters.length rnd pos
        = .ok ((rnd pos : Int) % (letters.length : Int), pos + 1) := by
      have : ¬ ((letters.length : Int) ≤ 0) := by omega
      simp [Intn, this]
    have hlt : ((rnd pos : Int) % (letters.length : Int)).toNat < letters.length := by
      have h0 := Int.emod_nonneg (rnd pos : Int) (ne_of_gt hpos)
      have h1 := Int.emod_lt_of_pos (rnd pos : Int) hpos
      omega
    obtain ⟨out, pos1, hrest⟩ := ih (pos + 1)
    refine ⟨letters[((rnd pos : Int) % (letters.length : Int)).toNat] :: out, pos1, ?_⟩
    rw [makeRandCharsLoop, hi, Res.bind_ok]
    simp only [List.getElem?_eq_getElem hlt, hrest, Res.bind_ok]

theorem mem_mapRange (n : Nat) (keys : List Nat) (rnd : Rand) (pos : Nat) :
    ∀ b ∈ (mapRange n keys rnd pos).1, b ∈ keys := by
  induction n generalizing keys pos with
  | zero => intro b hb; simp [mapRange] at hb
  | succ n ih =>
    intro b hb
    rw [mapRange] at hb
    cases hk : keys[rnd pos % keys.length]? with
    | none => rw [hk] at hb; simp at hb
    | some k =>
      rw [hk] at hb
      rcases List.mem_cons.mp hb with rfl | hb
      · exact List.getElem?_mem hk
      · exact List.mem_of_mem_eraseIdx (ih _ _ b hb)

theorem length_mapRange (n : Nat) (keys : List Nat) (rnd : Rand) (pos : Nat)
    (h : n ≤ keys.length) : (mapRange n keys rnd pos).1.length = n := by
  induction n generalizing keys pos with
  | zero => simp [mapRange]
  | succ n ih =>
    have hlt : rnd pos % keys.length < keys.length := Nat.mod_lt _ (by omega)
    rw [mapRange, List.getElem?_eq_getElem hlt]
    simp only [List.length_cons, Nat.add_left_inj]
    apply ih
    rw [List.length_eraseIdx]
    simp only [hlt, ↓reduceIte]
    omega

theorem charsFromCharClassRangeLoop_hang (fuel i cTo : Nat) (sb : GoString) (h : 255 ≤ cTo)
    (hi : i ≤ 255) : charsFromCharClassRangeLoop fuel i cTo sb = .hang := by
  induction fuel generalizing i sb with
  | zero => rfl
  | succ fuel ih =>
    rw [charsFromCharClassRangeLoop, if_pos (by omega)]
    exact ih _ _ (by omega)

theorem mem_charsFromCharClassRangeLoop (fuel i cTo : Nat) (sb s : GoString)
    (h : charsFromCharClassRangeLoop fuel i cTo sb = .ok s) :
    ∀ b ∈ s, b ∈ sb ∨ (i ≤ b ∧ b ≤ cTo) := by
  induction fuel generalizing i sb with
  | zero => cases h
  | succ fuel ih =>
    rw [charsFromCharClassRangeLoop] at h
    split at h
    · rename_i hle
      by_cases hwrap : 255 ≤ i
      · rw [charsFromCharClassRangeLoop_hang fuel _ cTo _ (by omega) (by omega)] at h
        cases h
      · intro b hb
        rcases ih _ _ h b hb with hmem | ⟨h1, h2⟩
        · rcases List.mem_append.mp hmem with hmem | hmem
          · exact Or.inl hmem
          · simp only [List.mem_singleton] at hmem
            exact Or.inr ⟨by omega, by omega⟩
        · exact Or.inr ⟨by omega, h2⟩
    · simp only [Res.ok.injEq] at h
      intro b hb
      exact Or.inl (h ▸ hb)

theorem mem_charsFromCharClassRange (cFrom cTo : Nat) (s : GoString)
    (h : charsFromCharClassRange cFrom cTo = .ok s) : ∀ b ∈ s, cFrom ≤ b ∧ b ≤ cTo := by
  unfold charsFromCharClassRange at h
  split at h
  · cases h
  · intro b hb
    rcases mem_charsFromCharClassRangeLoop _ _ _ _ _ h b hb with hmem | hmem
    · simp at hmem
    · exact hmem

theorem mem_charClassKindChars (m : CharClassKind) (s : GoString)
    (h : charClassKindChars m = .ok s) : ∀ b ∈ s, memberSet m b := by
  cases m with
  | CharClassSingleChar esc c =>
    simp only [charClassKindChars, Res.ok.injEq] at h
    intro b hb
    simpa [memberSet, h] using hb
  | CharClassPreset p => cases h
  | CharClassMetaChar c =>
    simp only [charClassKindChars] at h
    intro b hb
    simp only [memberSet, familyChars]
    split_ifs at h ⊢ <;> simp_all
  | CharClassRange range =>
    intro b hb
    simp only [charClassKindChars] at h
    simp only [memberSet]
    rcases hcut : Cut range (goStr "-") with ⟨f, t, found⟩
    rw [hcut] at h
    cases found <;> rcases f with _ | ⟨f1, _ | ⟨f2, f3⟩⟩ <;>
      rcases t with _ | ⟨t1, _ | ⟨t2, t3⟩⟩ <;> dsimp only at h ⊢ <;>
      first
        | cases h
        | exact mem_charsFromCharClassRange _ _ s h b hb

theorem mem_charSeq (chars : List CharClassKind) (seq : GoString)
    (h : charSeq chars = .ok seq) : ∀ b ∈ seq, ∃ m ∈ chars, memberSet m b := by
  induction chars generalizing seq with
  | nil =>
    simp only [charSeq, Res.ok.injEq] at h
    intro b hb; rw [← h] at hb; simp at hb
  | cons m rest ih =>
    rw [charSeq] at h
    cases hm : charClassKindChars m with
    | ok s =>
      rw [hm, Res.bind_ok] at h
      cases hr : charSeq rest with
      | ok t =>
        rw [hr, Res.bind_ok] at h
        simp only [Res.ok.injEq] at h
        intro b hb
        rw [← h] at hb
        rcases List.mem_append.mp hb with hb | hb
        · exact ⟨m, List.mem_cons_self _ _, mem_charClassKindChars m s hm b hb⟩
        · obtain ⟨m1, hm1, hs⟩ := ih t hr b hb
          exact ⟨m1, List.mem_cons_of_mem _ hm1, hs⟩
      | panic msg => rw [hr] at h; cases h
      | hang => rw [hr] at h; cases h
    | panic msg => rw [hm] at h; cases h
    | hang => rw [hm] at h; cases h

theorem getSeqLen_unbounded_panics (qFrom : Int) (c : QuantifierConstraint) (rnd : Rand)
    (pos : Nat) (h : c.MaxLen < qFrom) (hc : 0 ≤ c.MaxLen)
    (hf : qFrom ≤ 9223372036854775807) :
    getSeqLen (some ⟨qFrom, none⟩) c rnd pos = .panic "invalid argument to Intn" := by
  have hw : wrapInt64 (c.MaxLen - qFrom + 1) = c.MaxLen - qFrom + 1 :=
    wrapInt64_of_isInt64 _ (by omega) (by omega)
  have hle : c.MaxLen - qFrom + 1 ≤ 0 := by omega
  simp [getSeqLen, Intn, hw, hle, Res.bind_panic]

theorem getSeqLen_unbounded_ok (qFrom : Int) (c : QuantifierConstraint) (rnd : Rand)
    (pos : Nat) (h : qFrom ≤ c.MaxLen) (hf : -9223372036854775808 ≤ qFrom)
    (hc : c.MaxLen ≤ 9223372036854775807) (hspan : c.MaxLen - qFrom < 9223372036854775807) :
    getSeqLen (some ⟨qFrom, none⟩) c rnd pos
      = .ok ((rnd pos : Int) % (c.MaxLen - qFrom + 1) + qFrom, pos + 1) := by
  have hw : wrapInt64 (c.MaxLen - qFrom + 1) = c.MaxLen - qFrom + 1 :=
    wrapInt64_of_isInt64 _ (by omega) (by omega)
  have hle : ¬ (c.MaxLen - qFrom + 1 ≤ 0) := by omega
  have hm0 := Int.emod_nonneg (rnd pos : Int) (b := c.MaxLen - qFrom + 1) (by omega)
  have hm1 := Int.emod_lt_of_pos (rnd pos : Int) (b := c.MaxLen - qFrom + 1) (by omega)
  have hw2 : wrapInt64 ((rnd pos : Int) % (c.MaxLen - qFrom + 1) + qFrom)
      = (rnd pos : Int) % (c.MaxLen - qFrom + 1) + qFrom :=
    wrapInt64_of_isInt64 _ (by omega) (by omega)
  simp [getSeqLen, Intn, hw, hle, hw2, Res.bind_ok]

theorem getSeqLen_span_overflow_panics (qFrom qTo : Int) (c : QuantifierConstraint)
    (rnd : Rand) (pos : Nat) (hf : -9223372036854775808 ≤ qFrom)
    (ht : qTo ≤ 9223372036854775807) (hspan : 9223372036854775807 ≤ qTo - qFrom) :
    getSeqLen (some ⟨qFrom, some qTo⟩) c rnd pos = .panic "invalid argument to Intn" := by
  have h1 : max qFrom qTo = qTo := max_eq_right (by omega)
  have hle : wrapInt64 (qTo - qFrom + 1) ≤ 0 := by
    unfold wrapInt64
    omega
  simp [getSeqLen, Intn, h1, hle, Res.bind_panic]

/-- With a negative bound the span can wrap upwards: for `{2,}` and the least `int` as
bound, `rand.Intn` gets the greatest `int` and the count 7 is drawn, above the bound. -/
theorem getSeqLen_count_above_negative_bound :
    getSeqLen (some ⟨2, none⟩) ⟨-9223372036854775808⟩ (draws [5]) 0 = .ok (7, 1) := by
  decide

theorem genFromExpr_group (kind : Option GroupKind) (alts : List Alternative)
    (q : Option Quantifier) (c : QuantifierConstraint) (rnd : Rand) (pos : Nat) :
    genFromExpr (.Group kind alts q) c rnd pos = genFromGroup alts q c rnd pos := by
  rw [genFromExpr, genFromGroup]

set_option maxRecDepth 100000 in
theorem genFromNode_empty_complement_panics :
    Walk ⟨none⟩ (.Regexp (rootOf [.CharClass true [.CharClassMetaChar (goStr ".")] none]))
      = .ok ⟨none⟩ ∧
    genFromNode (.Regexp (rootOf [.CharClass true [.CharClassMetaChar (goStr ".")] none])) ⟨10⟩
      (draws []) 0 = .panic "invalid argument to Intn" := by
  decide

/-! ## The claims -/

/-- C1. Generation can fail after a successful validation: the tree of `a{11,}` is accepted
by the validator, and with the default upper bound `MaxLen = 10` every run of `genFromNode`
on it panics in `rand.Intn`, whatever the random draws. -/
theorem genFromNode_panics_on_accepted_tree :
    Walk ⟨none⟩ (.Regexp (rootOf [lit "a" (some ⟨11, none⟩)])) = .ok ⟨none⟩ ∧
    ∀ (rnd : Rand) (pos : Nat),
      genFromNode (.Regexp (rootOf [lit "a" (some ⟨11, none⟩)])) ⟨10⟩ rnd pos
        = .panic "invalid argument to Intn" := by
  refine ⟨by decide, ?_⟩
  intro rnd pos
  have hlen := getSeqLen_unbounded_panics 11 ⟨10⟩ rnd (pos + 1) (by decide) (by decide)
    (by decide)
  simp [genFromNode, rootOf, genFromRoot_single, genFromalternative, genFromExprs, lit,
    genFromExpr, genChar, hlen, Res.bind_panic]

/-- C2. For the quantifier `+` (from 1, no upper end) and the upper bound `B = 0`,
`getSeqLen` does not return 1: it panics in `rand.Intn(0)`, whatever the random draw. -/
theorem getSeqLen_plus_with_bound_zero_panics :
    ∀ (rnd : Rand) (pos : Nat),
      getSeqLen (some ⟨1, none⟩) ⟨0⟩ rnd pos = .panic "invalid argument to Intn" := by
  intro rnd pos
  exact getSeqLen_unbounded_panics 1 ⟨0⟩ rnd pos (by decide) (by decide) (by decide)

/-- A literal with the bounded quantifier `{from, to}`, `0 ≤ from ≤ to`, whose span
`to - from + 1` is a value of `int`: every run of `genChar` returns the literal repeated `k`
times for some `from ≤ k ≤ to`, a string of `k * L` bytes, within `[from * L, to * L]`, and
consumes one draw; and every `k` of `[from, to]` is produced by some draw. -/
theorem genChar_bounded_quantifier (char : GoString) (qFrom qTo : Int) (c : QuantifierConstraint)
    (h0 : 0 ≤ qFrom) (h1 : qFrom ≤ qTo) (ht : qTo ≤ 9223372036854775807)
    (hspan : qTo - qFrom < 9223372036854775807) :
    (∀ (rnd : Rand) (pos : Nat), ∃ k : Nat, qFrom ≤ k ∧ (k : Int) ≤ qTo ∧
        genChar char (some ⟨qFrom, some qTo⟩) c rnd pos
          = .ok ((List.replicate k char).flatten, pos + 1) ∧
        ((List.replicate k char).flatten).length = k * char.length ∧
        qFrom * char.length ≤ ((List.replicate k char).flatten).length ∧
        (((List.replicate k char).flatten).length : Int) ≤ qTo * char.length) ∧
    (∀ k : Nat, qFrom ≤ k → (k : Int) ≤ qTo → ∀ pos : Nat, ∃ rnd : Rand,
        genChar char (some ⟨qFrom, some qTo⟩) c rnd pos
          = .ok ((List.replicate k char).flatten, pos + 1)) := by
  have hlen := fun (rnd : Rand) (pos : Nat) =>
    getSeqLen_bounded qFrom qTo c rnd pos h1 (by omega) ht hspan
  constructor
  · intro rnd pos
    have hpos : (0 : Int) < qTo - qFrom + 1 := by omega
    have hm0 := Int.emod_nonneg (rnd pos : Int) (ne_of_gt hpos)
    have hm1 := Int.emod_lt_of_pos (rnd pos : Int) hpos
    obtain ⟨k, hk⟩ := Int.eq_ofNat_of_zero_le (a := (rnd pos : Int) % (qTo - qFrom + 1) + qFrom) (by omega)
    refine ⟨k, by omega, by omega, ?_, length_flatten_replicate k char, ?_, ?_⟩
    · simp [genChar, hlen, Res.bind, hk, Repeat_ofNat]
    · rw [length_flatten_replicate]
      push_cast
      exact mul_le_mul_of_nonneg_right (by omega) (by positivity)
    · rw [length_flatten_replicate]
      push_cast
      exact mul_le_mul_of_nonneg_right (by omega) (by positivity)
  · intro k hk0 hk1 pos
    refine ⟨fun _ => (k - qFrom).toNat, ?_⟩
    have hcast : (((k : Int) - qFrom).toNat : Int) = k - qFrom := Int.toNat_of_nonneg (by omega)
    have hmod : ((k : Int) - qFrom) % (qTo - qFrom + 1) = k - qFrom :=
      Int.emod_eq_of_lt (by omega) (by omega)
    simp [genChar, hlen, Res.bind, hcast, hmod, Repeat_ofNat]

/-- The literal `a` with `{2,3}` and a first draw of 1. -/
theorem genChar_bounded_quantifier_witness :
    ∃ k : Nat, (2 : Int) ≤ k ∧ (k : Int) ≤ 3 ∧
      genChar (goStr "a") (some ⟨2, some 3⟩) ⟨10⟩ (draws [1]) 0
        = .ok ((List.replicate k (goStr "a")).flatten, 0 + 1) ∧
      ((List.replicate k (goStr "a")).flatten).length = k * (goStr "a").length ∧
      (2 : Int) * (goStr "a").length ≤ ((List.replicate k (goStr "a")).flatten).length ∧
      (((List.replicate k (goStr "a")).flatten).length : Int) ≤ 3 * (goStr "a").length :=
  (genChar_bounded_quantifier (goStr "a") 2 3 ⟨10⟩ (by decide) (by decide) (by decide)
    (by decide)).1 (draws [1]) 0

/-- C3. The literal `a` with the bounded quantifier `{0,9223372036854775807}`, for which
`0 ≤ from ≤ to` holds: `Quantifier.Capture` builds it, the validator accepts it, and every
run of `genChar` panics, because `maxLen - minLen + 1` wraps to the least `int` and
`rand.Intn` refuses it; no repetition of the literal is returned. -/
theorem genChar_panics_when_span_overflows :
    Quantifier.Capture ⟨0, none⟩ [goStr "\x7b0,9223372036854775807\x7d"]
      = .ok (⟨0, some 9223372036854775807⟩, none) ∧
    Walk ⟨none⟩ (.Regexp (rootOf [lit "a" (some ⟨0, some 9223372036854775807⟩)]))
      = .ok ⟨none⟩ ∧
    wrapInt64 (max 0 9223372036854775807 - 0 + 1) = -9223372036854775808 ∧
    ∀ (c : QuantifierConstraint) (rnd : Rand) (pos : Nat),
      genChar (goStr "a") (some ⟨0, some 9223372036854775807⟩) c rnd pos
        = .panic "invalid argument to Intn" := by
  refine ⟨by decide, by decide, by decide, ?_⟩
  intro c rnd pos
  rw [genChar, getSeqLen_span_overflow_panics 0 9223372036854775807 c rnd pos (by decide)
    (by decide) (by decide), Res.bind_panic]

/-- C4. A root with one alternative made only of unquantified literals: `genFromNode`
returns the concatenation of the literals in order, for every configuration, every anchor
flags and every random draw (one draw is consumed, for the choice of the alternative). -/
theorem genFromNode_literals (lits : List (Bool × GoString)) (startOfString endOfString : Bool)
    (c : QuantifierConstraint) (rnd : Rand) (pos : Nat) :
    genFromNode (.Regexp ⟨[.mk startOfString (lits.map fun l => Expr.Char l.1 l.2 none) endOfString]⟩)
      c rnd pos = .ok ((lits.map Prod.snd).flatten, pos + 1) := by
  simp [genFromNode, genFromRoot_single, genFromalternative, genFromExprs_literals]

/-- C5. The validator does not check the quantifier of a group or of a character class: the
trees of `(a){3,1}` and `[a]{3,1}` are walked without an error, while the literal `a{3,1}`
is rejected. -/
theorem Walk_accepts_reversed_quantifier_on_group_and_class :
    Walk ⟨none⟩ (.Regexp (rootOf [.Group none [.mk false [lit "a" none] false] (some ⟨3, some 1⟩)]))
      = .ok ⟨none⟩ ∧
    Walk ⟨none⟩ (.Regexp (rootOf [.CharClass false [.CharClassSingleChar false (goStr "a")]
      (some ⟨3, some 1⟩)])) = .ok ⟨none⟩ ∧
    (Walk ⟨none⟩ (.Regexp (rootOf [lit "a" (some ⟨3, some 1⟩)]))).bind (fun v => .ok v.err.isSome)
      = .ok true := by
  decide

/-- C6. The tree of `\v[a-я]` contains a vertical-tab meta character, but the walk does not
end with an error value: after recording the error of `\v` it panics at the range, which
the tokenizer accepts and whose upper end takes two bytes. -/
theorem Walk_panics_on_tree_with_vertical_tab :
    (∃ e ∈ (Node.Regexp (rootOf [.MetaChar (goStr "\\v") none,
        .CharClass false [.CharClassRange (goStr "a-я")] none])).nodes, unsupported e = true) ∧
    Walk ⟨none⟩ (.Regexp (rootOf [.MetaChar (goStr "\\v") none,
        .CharClass false [.CharClassRange (goStr "a-я")] none]))
      = .panic "charClassRangeValidate: invalid class range" := by
  refine ⟨⟨.MetaChar (goStr "\\v") none, ?_, by decide⟩, by decide⟩
  simp [Node.nodes, rootOf, alternativesNodes, Alternative.nodes, exprsNodes, Expr.nodes]

/-- Apart from the panic, the walk rejects the unsupported constructs: on a tree that
contains at any depth a vertical-tab meta character (outside or inside a class), a preset
or a reversed range, every walk that returns ends with an error, and the walk returns when
all the ranges have the form `x-y` with single-byte ends; on every tree, an error held
before a walk is still held after it. -/
theorem Walk_rejects_unsupported (root : Regexp)
    (hu : ∃ e ∈ (Node.Regexp root).nodes, unsupported e = true) :
    (∀ v1, Walk ⟨none⟩ (.Regexp root) = .ok v1 → v1.err ≠ none) ∧
    ((∀ e ∈ (Node.Regexp root).nodes, rangesWellFormed e = true) →
      ∃ err, Walk ⟨none⟩ (.Regexp root) = .ok ⟨some err⟩) ∧
    ∀ (v : validator) (n : Node) (v1 : validator),
      v.err ≠ none → Walk v n = .ok v1 → v1.err ≠ none := by
  refine ⟨?_, ?_, ?_⟩
  · intro v1 h
    rw [Walk_eq] at h
    exact visitAll_unsupported _ _ _ h hu
  · intro hw
    obtain ⟨v1, hv1⟩ := visitAll_total (Node.Regexp root).nodes ⟨none⟩ hw
    have hne := visitAll_unsupported _ _ _ hv1 hu
    rw [Walk_eq, hv1]
    obtain ⟨err⟩ := v1
    cases err with
    | none => exact absurd rfl hne
    | some e => exact ⟨e, rfl⟩
  · intro v n v1 hv h
    rw [Walk_eq] at h
    exact visitAll_sticky _ _ _ h hv

/-- A preset inside a class inside a group is rejected. -/
theorem Walk_rejects_unsupported_witness :
    ∃ err, Walk ⟨none⟩ (.Regexp (rootOf [lit "a" none, .Group none
      [.mk false [.CharClass false [.CharClassPreset (goStr "digit")] none] false] none]))
      = .ok ⟨some err⟩ :=
  (Walk_rejects_unsupported (rootOf [lit "a" none, .Group none
      [.mk false [.CharClass false [.CharClassPreset (goStr "digit")] none] false] none])
    (by decide)).2.1 (by decide)

/-- Counterexample to C7: the validator accepts a tree whose meta character has the text
`s`, which is none of the seven implemented ones (it occurs inside the table string). -/
theorem Walk_accepts_fragment_of_table :
    Walk ⟨none⟩ (.Regexp (rootOf [.MetaChar (goStr "s") none])) = .ok ⟨none⟩ ∧
    goStr "s" ∉ implementedMetaChars := by
  decide

/-- C7, amended. If the validator accepts a tree, the text of every meta character in it
(a node or a class member) occurs in the table string and is not `\v`; so when the text is
one of the eight that the tokenizer produces, it is one of the seven implemented ones. -/
theorem Walk_accepted_metaChars (root : Regexp)
    (h : Walk ⟨none⟩ (.Regexp root) = .ok ⟨none⟩) :
    ∀ e ∈ (Node.Regexp root).nodes, ∀ c ∈ metaChars e,
      (Index metaCharTable c ≠ -1 ∧ c ≠ goStr "\\v") ∧
      (c ∈ lexerMetaChars → c ∈ implementedMetaChars) := by
  intro e he c hc
  rw [Walk_eq] at h
  have hacc := visitAll_accept _ _ _ h rfl e he c hc
  refine ⟨hacc, fun hl => ?_⟩
  rcases List.mem_append.mp hl with hl | hl
  · exact hl
  · exact absurd (List.mem_singleton.mp hl) hacc.2

/-- Witness of C7: the tree of `\d[\w]` is accepted, and the class member `\w` is one of
the seven implemented meta characters. -/
theorem Walk_accepted_metaChars_witness :
    Walk ⟨none⟩ (.Regexp (rootOf [.MetaChar (goStr "\\d") none,
        .CharClass false [.CharClassMetaChar (goStr "\\w")] none])) = .ok ⟨none⟩ ∧
    (Index metaCharTable (goStr "\\w") ≠ -1 ∧ goStr "\\w" ≠ goStr "\\v") ∧
    goStr "\\w" ∈ implementedMetaChars :=
  ⟨by decide,
    (Walk_accepted_metaChars (rootOf [.MetaChar (goStr "\\d") none,
        .CharClass false [.CharClassMetaChar (goStr "\\w")] none]) (by decide)
      (.CharClass false [.CharClassMetaChar (goStr "\\w")] none)
      (by simp [Node.nodes, rootOf, alternativesNodes, Alternative.nodes, exprsNodes, Expr.nodes])
      (goStr "\\w") (by simp [metaChars])).1,
    (Walk_accepted_metaChars (rootOf [.MetaChar (goStr "\\d") none,
        .CharClass false [.CharClassMetaChar (goStr "\\w")] none]) (by decide)
      (.CharClass false [.CharClassMetaChar (goStr "\\w")] none)
      (by simp [Node.nodes, rootOf, alternativesNodes, Alternative.nodes, exprsNodes, Expr.nodes])
      (goStr "\\w") (by simp [metaChars])).2 (by decide)⟩

set_option maxRecDepth 100000 in
/-- C8. The walk does not stop at the first violation: on the tree of `a{3,1}b{5,2}` the
validator ends with the error of the second literal, not with the error that visiting the
first literal produces. -/
theorem Walk_keeps_last_error :
    validator.Visit ⟨none⟩ (some (.Expr (lit "a" (some ⟨3, some 1⟩))))
      = .ok (⟨some ⟨goStr
          "invalid quantifier: invalid quantifier range, expected from >= to, got (from=3, to=1)"⟩⟩,
          false) ∧
    Walk ⟨none⟩ (.Regexp (rootOf [lit "a" (some ⟨3, some 1⟩), lit "b" (some ⟨5, some 2⟩)]))
      = .ok ⟨some ⟨goStr
          "invalid quantifier: invalid quantifier range, expected from >= to, got (from=5, to=2)"⟩⟩ := by
  decide

/-- C9. `New` is gated by the validator: when the walk over the parsed tree ends with an
error, `New` returns a nil generator and a non-nil error; and when `New` returns a
generator, its error is nil, parsing succeeded and the walk ended without an error. -/
theorem New_gated_by_validator (ParseString : GoString → Except GoError Regexp)
    (re : GoString) (constraint : QuantifierConstraint) :
    (∀ root err, ParseString re = .ok root → Walk ⟨none⟩ (.Regexp root) = .ok ⟨some err⟩ →
      ∃ e, New ParseString re constraint = .ok (none, some e)) ∧
    (∀ gen err, New ParseString re constraint = .ok (some gen, err) →
      err = none ∧ ∃ root, ParseString re = .ok root ∧
        Walk ⟨none⟩ (.Regexp root) = .ok ⟨none⟩) := by
  constructor
  · intro root err hp hwalk
    refine ⟨⟨goStr "invalid regex: " ++ fmtW none⟩, ?_⟩
    simp only [New, hp, hwalk, Res.bind_ok]
  · intro gen err h
    unfold New at h
    cases hp : ParseString re with
    | error e => rw [hp] at h; simp at h
    | ok root =>
      rw [hp] at h
      dsimp only at h
      cases hwalk : Walk ⟨none⟩ (.Regexp root) with
      | ok v =>
        obtain ⟨verr⟩ := v
        rw [hwalk] at h
        cases verr with
        | none =>
          simp only [Res.bind_ok, Res.ok.injEq, Prod.mk.injEq] at h
          exact ⟨h.2.symm, root, rfl, hwalk⟩
        | some e => simp [Res.bind_ok] at h
      | panic m => rw [hwalk] at h; cases h
      | hang => rw [hwalk] at h; cases h

set_option maxRecDepth 100000 in
/-- Witness of C9: a parser that returns the tree of `a{3,1}`. -/
theorem New_gated_by_validator_witness :
    ∃ e, New (fun _ => .ok (rootOf [lit "a" (some ⟨3, some 1⟩)])) (goStr "a{3,1}") ⟨10⟩
      = .ok (none, some e) :=
  (New_gated_by_validator (fun _ => .ok (rootOf [lit "a" (some ⟨3, some 1⟩)]))
    (goStr "a{3,1}") ⟨10⟩).1 _ ⟨goStr
      "invalid quantifier: invalid quantifier range, expected from >= to, got (from=3, to=1)"⟩
    rfl (by decide)

/-- C10. A non-negated character class that the validator accepts and whose assembled
character sequence is non-empty: every byte of an output of `genFromCharClass` lies in the
set of one of the members, and the output has as many bytes as the count that `getSeqLen`
draws for the quantifier; and whenever that count is drawn and is not negative, an output
is produced. -/
theorem genFromCharClass_members (chars : List CharClassKind) (q : Option Quantifier)
    (constraint : QuantifierConstraint) (rnd : Rand) (pos : Nat) (seq : GoString)
    (_hacc : ∃ b, validator.Visit ⟨none⟩ (some (.Expr (.CharClass false chars q)))
      = .ok (⟨none⟩, b))
    (hseq : charSeq chars = .ok seq) (hne : seq ≠ []) :
    (∀ out pos1, genFromCharClass false chars q constraint rnd pos = .ok (out, pos1) →
      (∀ b ∈ out, ∃ m ∈ chars, memberSet m b) ∧
      ∃ n p, getSeqLen q constraint rnd pos = .ok (n, p) ∧ (out.length : Int) = n) ∧
    (∀ n p, getSeqLen q constraint rnd pos = .ok (n, p) → 0 ≤ n →
      ∃ out pos1, genFromCharClass false chars q constraint rnd pos = .ok (out, pos1)) := by
  constructor
  · intro out pos1 h
    unfold genFromCharClass at h
    cases hlen : getSeqLen q constraint rnd pos with
    | ok r =>
      rw [hlen, Res.bind_ok, hseq, Res.bind_ok] at h
      simp only [Bool.false_eq_true, ↓reduceIte, makeRandCharsFromSeq] at h
      split at h
      · cases h
      · rename_i hnonneg
        obtain ⟨hl, hm⟩ := makeRandCharsLoop_spec _ _ _ _ _ _ h
        refine ⟨fun b hb => ?_, r.1, r.2, rfl, ?_⟩
        · have h1 := mem_mapRange _ _ _ _ b (hm b hb)
          exact mem_charSeq chars seq hseq b (List.mem_dedup.mp h1)
        · rw [hl]
          exact Int.toNat_of_nonneg (by omega)
    | panic m => rw [hlen] at h; cases h
    | hang => rw [hlen] at h; cases h
  · intro n p hlen hn
    have hletters : (charUniq seq rnd p).1 ≠ [] := by
      intro hnil
      have hl := length_mapRange seq.dedup.length seq.dedup rnd p (le_refl _)
      unfold charUniq at hnil
      rw [hnil] at hl
      have : seq.dedup = [] := List.length_eq_zero.mp hl.symm
      exact hne (List.dedup_eq_nil _ |>.mp this)
    obtain ⟨out, pos1, hout⟩ := makeRandCharsLoop_total n.toNat _ rnd (charUniq seq rnd p).2 hletters
    refine ⟨out, pos1, ?_⟩
    unfold genFromCharClass
    rw [hlen, Res.bind_ok, hseq, Res.bind_ok]
    simp only [Bool.false_eq_true, ↓reduceIte, makeRandCharsFromSeq]
    rw [if_neg (by omega)]
    exact hout

/-- Witness of C10: the class `[a-c]` with the quantifier `{3}` and the draws
0, 2, 1, 0, 7, 8, 9 gives `bac`; each byte is one of `a`, `b`, `c` and the count drawn is 3. -/
theorem genFromCharClass_members_witness :
    genFromCharClass false [.CharClassRange (goStr "a-c")] (some ⟨3, some 3⟩) ⟨10⟩
        (draws [0, 2, 1, 0, 7, 8, 9]) 0 = .ok (goStr "bac", 7) ∧
    (∀ b ∈ goStr "bac", ∃ m ∈ [CharClassKind.CharClassRange (goStr "a-c")], memberSet m b) ∧
    ∃ n p, getSeqLen (some ⟨3, some 3⟩) ⟨10⟩ (draws [0, 2, 1, 0, 7, 8, 9]) 0 = .ok (n, p) ∧
      ((goStr "bac").length : Int) = n :=
  ⟨by decide,
    (genFromCharClass_members [.CharClassRange (goStr "a-c")] (some ⟨3, some 3⟩) ⟨10⟩
      (draws [0, 2, 1, 0, 7, 8, 9]) 0 (goStr "abc") ⟨true, by decide⟩ (by decide)
      (by decide)).1 (goStr "bac") 7 (by decide)⟩

/-! ## Lemmas for the second group of claims -/

theorem charsFromCharClassRangeLoop_eq (fuel i cTo : Nat) (sb s : GoString)
    (h : charsFromCharClassRangeLoop fuel i cTo sb = .ok s) :
    s = sb ++ List.range' i (cTo + 1 - i) := by
  induction fuel generalizing i sb with
  | zero => cases h
  | succ fuel ih =>
    rw [charsFromCharClassRangeLoop] at h
    split at h
    · rename_i hle
      by_cases hwrap : 255 ≤ i
      · rw [charsFromCharClassRangeLoop_hang fuel _ cTo _ (by omega) (by omega)] at h
        cases h
      · have hmod : (i + 1) % 256 = i + 1 := Nat.mod_eq_of_lt (by omega)
        rw [hmod] at h
        rw [ih _ _ h, List.append_assoc]
        congr 1
        have hlen : cTo + 1 - i = (cTo + 1 - (i + 1)) + 1 := by omega
        rw [hlen, List.range'_succ]
        rfl
    · rename_i hlt
      simp only [Res.ok.injEq] at h
      have hzero : cTo + 1 - i = 0 := by omega
      rw [hzero, ← h]
      simp

theorem charsFromCharClassRangeLoop_total (fuel i cTo : Nat) (sb : GoString)
    (ht : cTo < 255) (hi : i ≤ cTo + 1) (hf : cTo + 2 - i ≤ fuel) :
    charsFromCharClassRangeLoop fuel i cTo sb = .ok (sb ++ List.range' i (cTo + 1 - i)) := by
  induction fuel generalizing i sb with
  | zero => omega
  | succ fuel ih =>
    rw [charsFromCharClassRangeLoop]
    split
    · rename_i hle
      have hmod : (i + 1) % 256 = i + 1 := Nat.mod_eq_of_lt (by omega)
      rw [hmod, ih (i + 1) _ (by omega) (by omega), List.append_assoc]
      congr 2
      have hlen : cTo + 1 - i = (cTo + 1 - (i + 1)) + 1 := by omega
      rw [hlen, List.range'_succ]
      rfl
    · have hzero : cTo + 1 - i = 0 := by omega
      rw [hzero]
      simp

theorem charsFromCharClassRange_below_255 (cFrom cTo : Nat) (h : cFrom ≤ cTo) (ht : cTo < 255) :
    charsFromCharClassRange cFrom cTo = .ok (List.range' cFrom (cTo - cFrom + 1)) := by
  unfold charsFromCharClassRange
  rw [if_neg (by omega), charsFromCharClassRangeLoop_total 257 cFrom cTo [] ht (by omega) (by omega)]
  simp only [List.nil_append]
  congr 2
  omega

theorem mem_charsFromCharClassRange_iff (cFrom cTo : Nat) (s : GoString)
    (h : charsFromCharClassRange cFrom cTo = .ok s) (b : Nat) :
    b ∈ s ↔ cFrom ≤ b ∧ b ≤ cTo := by
  unfold charsFromCharClassRange at h
  split at h
  · cases h
  · rw [charsFromCharClassRangeLoop_eq _ _ _ _ _ h]
    simp only [List.nil_append, List.mem_range'_1]
    omega

theorem IndexByte_ge (s : GoString) (c : Nat) : -1 ≤ IndexByte s c := by
  induction s with
  | nil => simp [IndexByte]
  | cons b t ih =>
    rw [IndexByte]
    split
    · omega
    · dsimp only
      split <;> omega

theorem IndexByte_eq_neg_one_iff (s : GoString) (c : Nat) : IndexByte s c = -1 ↔ c ∉ s := by
  induction s with
  | nil => simp [IndexByte]
  | cons b t ih =>
    rw [IndexByte]
    have hge := IndexByte_ge t c
    split
    · rename_i hb
      subst hb
      simp
    · rename_i hb
      dsimp only
      have hcb : ¬ c = b := fun h => hb h.symm
      split
      · rename_i hi
        simp only [List.mem_cons, hcb, false_or, true_iff]
        exact ih.mp hi
      · rename_i hi
        simp only [List.mem_cons, hcb, false_or]
        constructor
        · intro h; omega
        · intro h; exact absurd (ih.mpr h) hi

theorem mem_charsWithExpect (targetChars expectChars : GoString) (b : Nat) :
    b ∈ charsWithExpect targetChars expectChars ↔ b ∈ targetChars ∧ b ∉ expectChars := by
  simp [charsWithExpect, IndexByte_eq_neg_one_iff]

theorem mem_mapRange_of_mem (n : Nat) (keys : List Nat) (rnd : Rand) (pos : Nat)
    (hn : n = keys.length) : ∀ b ∈ keys, b ∈ (mapRange n keys rnd pos).1 := by
  induction n generalizing keys pos with
  | zero =>
    intro b hb
    have : keys = [] := List.length_eq_zero.mp hn.symm
    rw [this] at hb
    simp at hb
  | succ n ih =>
    intro b hb
    have hlt : rnd pos % keys.length < keys.length := Nat.mod_lt _ (by omega)
    rw [mapRange, List.getElem?_eq_getElem hlt]
    simp only [List.mem_cons]
    obtain ⟨j, hj⟩ := List.mem_iff_getElem?.mp hb
    by_cases hji : j = rnd pos % keys.length
    · left
      subst hji
      rw [List.getElem?_eq_getElem hlt] at hj
      exact (Option.some.inj hj).symm
    · right
      apply ih
      · rw [List.length_eraseIdx]
        simp only [hlt, ↓reduceIte]
        omega
      · exact List.mem_eraseIdx_iff_getElem?.mpr ⟨j, hji, hj⟩

theorem mem_charUniq_iff (chars : GoString) (rnd : Rand) (pos : Nat) (b : Nat) :
    b ∈ (charUniq chars rnd pos).1 ↔ b ∈ chars := by
  unfold charUniq
  constructor
  · intro h
    exact List.mem_dedup.mp (mem_mapRange _ _ _ _ b h)
  · intro h
    exact mem_mapRange_of_mem _ _ _ _ rfl b (List.mem_dedup.mpr h)

theorem memberSet_charClassKindChars (m : CharClassKind) (s : GoString)
    (h : charClassKindChars m = .ok s) (b : Nat) (hb : memberSet m b) : b ∈ s := by
  cases m with
  | CharClassSingleChar esc c =>
    simp only [charClassKindChars, Res.ok.injEq] at h
    simpa [memberSet, h] using hb
  | CharClassPreset p => cases h
  | CharClassMetaChar c =>
    simp only [charClassKindChars] at h
    simp only [memberSet, familyChars] at hb
    split_ifs at h hb <;> simp_all
  | CharClassRange range =>
    simp only [charClassKindChars] at h
    simp only [memberSet] at hb
    rcases hcut : Cut range (goStr "-") with ⟨f, t, found⟩
    rw [hcut] at h hb
    cases found <;> rcases f with _ | ⟨f1, _ | ⟨f2, f3⟩⟩ <;>
      rcases t with _ | ⟨t1, _ | ⟨t2, t3⟩⟩ <;> dsimp only at h hb <;>
      first
        | cases h
        | exact (mem_charsFromCharClassRange_iff _ _ s h b).mpr hb

theorem memberSet_charSeq (chars : List CharClassKind) (seq : GoString)
    (h : charSeq chars = .ok seq) (b : Nat) (hb : ∃ m ∈ chars, memberSet m b) : b ∈ seq := by
  induction chars generalizing seq with
  | nil => obtain ⟨m, hm, _⟩ := hb; simp at hm
  | cons m rest ih =>
    rw [charSeq] at h
    cases hm : charClassKindChars m with
    | ok s =>
      rw [hm, Res.bind_ok] at h
      cases hr : charSeq rest with
      | ok t =>
        rw [hr, Res.bind_ok] at h
        simp only [Res.ok.injEq] at h
        rw [← h]
        obtain ⟨m1, hm1, hs⟩ := hb
        rcases List.mem_cons.mp hm1 with rfl | hm1
        · exact List.mem_append_left _ (memberSet_charClassKindChars m1 s hm b hs)
        · exact List.mem_append_right _ (ih t hr ⟨m1, hm1, hs⟩)
      | panic msg => rw [hr] at h; cases h
      | hang => rw [hr] at h; cases h
    | panic msg => rw [hm] at h; cases h
    | hang => rw [hm] at h; cases h

theorem Intn_of_pos (n : Int) (rnd : Rand) (pos : Nat) (h : 0 < n) :
    Intn n rnd pos = .ok ((rnd pos : Int) % n, pos + 1) := by
  have hn : ¬ (n ≤ 0) := by omega
  simp [Intn, hn]

theorem Intn_ok (n : Int) (rnd : Rand) (pos : Nat) (r : Int × Nat)
    (h : Intn n rnd pos = .ok r) : 0 ≤ r.1 ∧ r.1 < n ∧ r.2 = pos + 1 := by
  unfold Intn at h
  split at h
  · cases h
  · rename_i hn
    simp only [Res.ok.injEq] at h
    rw [← h]
    exact ⟨Int.emod_nonneg _ (by omega), Int.emod_lt_of_pos _ (by omega), rfl⟩

theorem genFromAlternativeAt_getElem (alts : List Alternative) (i : Nat) (a : Alternative)
    (c : QuantifierConstraint) (rnd : Rand) (pos : Nat) (h : alts[i]? = some a) :
    genFromAlternativeAt alts i c rnd pos = genFromalternative a c rnd pos := by
  induction alts generalizing i with
  | nil => simp at h
  | cons a0 rest ih =>
    cases i with
    | zero =>
      simp only [List.getElem?_cons_zero, Option.some.injEq] at h
      rw [genFromAlternativeAt, h]
    | succ j =>
      simp only [List.getElem?_cons_succ] at h
      rw [genFromAlternativeAt]
      exact ih j h

theorem selected_alternative (alts : List Alternative) (rnd : Rand) (pos : Nat)
    (h : alts ≠ []) :
    ∃ i a, i < alts.length ∧ alts[i]? = some a ∧
      Intn alts.length rnd pos = .ok ((i : Int), pos + 1) := by
  have hlen : 0 < alts.length := List.length_pos.mpr h
  have hlt : rnd pos % alts.length < alts.length := Nat.mod_lt _ hlen
  refine ⟨rnd pos % alts.length, alts[rnd pos % alts.length], hlt,
    List.getElem?_eq_getElem hlt, ?_⟩
  rw [Intn_of_pos _ _ _ (by exact_mod_cast hlen)]
  norm_cast

theorem getSeqLen_permitted (q : Option Quantifier) (c : QuantifierConstraint) (rnd : Rand)
    (pos : Nat) (k : Int) (p : Nat) (hq : goInts q) (hc : configOk c)
    (h : getSeqLen q c rnd pos = .ok (k, p)) :
    countPermitted q c k := by
  cases q with
  | none =>
    simp only [getSeqLen, Res.ok.injEq, Prod.mk.injEq] at h
    exact h.1.symm
  | some q =>
    obtain ⟨qFrom, qTo⟩ := q
    simp only [getSeqLen] at h
    obtain ⟨hc0, hc1⟩ := hc
    cases qTo with
    | none =>
      obtain ⟨⟨hf0, hf1⟩, _⟩ := hq
      dsimp only at h hf0 hf1
      cases hi : Intn (wrapInt64 (c.MaxLen - qFrom + 1)) rnd pos with
      | ok r =>
        rw [hi, Res.bind_ok] at h
        simp only [Res.ok.injEq, Prod.mk.injEq] at h
        obtain ⟨h0, h1, _⟩ := Intn_ok _ _ _ _ hi
        simp only [countPermitted]
        unfold wrapInt64 at h h1
        omega
      | panic m => rw [hi] at h; cases h
      | hang => rw [hi] at h; cases h
    | some t =>
      obtain ⟨⟨hf0, hf1⟩, ht0, ht1⟩ := hq
      dsimp only at h hf0 hf1 ht0 ht1
      cases hi : Intn (wrapInt64 (max qFrom t - qFrom + 1)) rnd pos with
      | ok r =>
        rw [hi, Res.bind_ok] at h
        simp only [Res.ok.injEq, Prod.mk.injEq] at h
        obtain ⟨h0, h1, _⟩ := Intn_ok _ _ _ _ hi
        simp only [countPermitted]
        unfold wrapInt64 at h h1
        omega
      | panic m => rw [hi] at h; cases h
      | hang => rw [hi] at h; cases h

theorem genFromExprs_eq_charsArr (exprs : List Expr) (c : QuantifierConstraint) (rnd : Rand)
    (pos : Nat) :
    genFromExprs exprs c rnd pos
      = (charsArr exprs c rnd pos).bind fun r => .ok (r.1.flatten, r.2) := by
  induction exprs generalizing pos with
  | nil => rw [genFromExprs, charsArr, Res.bind_ok]; rfl
  | cons e rest ih =>
    rw [genFromExprs, charsArr]
    cases he : genFromExpr e c rnd pos with
    | ok s =>
      simp only [Res.bind_ok]
      rw [ih]
      cases hr : charsArr rest c rnd s.2 with
      | ok t => simp only [Res.bind_ok, List.flatten_cons]
      | panic m => rfl
      | hang => rfl
    | panic m => rfl
    | hang => rfl

theorem charsArr_forall₂ (exprs : List Expr) (c : QuantifierConstraint) (rnd : Rand)
    (pos : Nat) (parts : List GoString) (p : Nat)
    (h : charsArr exprs c rnd pos = .ok (parts, p)) :
    List.Forall₂ (fun e part => ∃ p1 p2, genFromExpr e c rnd p1 = .ok (part, p2)) exprs parts := by
  induction exprs generalizing pos parts with
  | nil =>
    simp only [charsArr, Res.ok.injEq, Prod.mk.injEq] at h
    rw [← h.1]
    exact List.Forall₂.nil
  | cons e rest ih =>
    rw [charsArr] at h
    cases he : genFromExpr e c rnd pos with
    | ok s =>
      rw [he, Res.bind_ok] at h
      cases hr : charsArr rest c rnd s.2 with
      | ok t =>
        rw [hr, Res.bind_ok] at h
        simp only [Res.ok.injEq, Prod.mk.injEq] at h
        rw [← h.1]
        exact List.Forall₂.cons ⟨pos, s.2, he⟩ (ih s.2 t.1 (by rw [hr, ← h.2]))
      | panic m => rw [hr] at h; cases h
      | hang => rw [hr] at h; cases h
    | panic m => rw [he] at h; cases h
    | hang => rw [he] at h; cases h

theorem goStr_comma : goStr "," = [44] := by decide

theorem Index_singleton_of_not_mem (s : GoString) (c : Nat) (h : c ∉ s) :
    Index s [c] = -1 := by
  induction s with
  | nil => simp [Index, HasPrefix, List.isPrefixOf]
  | cons x t ih =>
    have hx : ¬ c = x := fun hcx => h (hcx ▸ List.mem_cons_self _ _)
    have ht : c ∉ t := fun hct => h (List.mem_cons_of_mem _ hct)
    rw [Index]
    simp [HasPrefix, List.isPrefixOf, hx, ih ht]

theorem Index_singleton_append (a b : GoString) (c : Nat) (h : c ∉ a) :
    Index (a ++ c :: b) [c] = a.length := by
  induction a with
  | nil => rw [List.nil_append, Index]; simp [HasPrefix, List.isPrefixOf]
  | cons x t ih =>
    have hx : ¬ c = x := fun hcx => h (hcx ▸ List.mem_cons_self _ _)
    have ht : c ∉ t := fun hct => h (List.mem_cons_of_mem _ hct)
    rw [List.cons_append, Index]
    have hne : ¬ ((t.length : Int) = -1) := by omega
    simp [HasPrefix, List.isPrefixOf, hx, ih ht, hne]

theorem Cut_of_not_mem (s : GoString) (c : Nat) (h : c ∉ s) : Cut s [c] = (s, [], false) := by
  simp [Cut, Index_singleton_of_not_mem s c h]

theorem Cut_append (a b : GoString) (c : Nat) (h : c ∉ a) :
    Cut (a ++ c :: b) [c] = (a, b, true) := by
  simp [Cut, Index_singleton_append a b c h]

theorem digitsValue_foldl (ds : GoString) (acc : Option Nat) (n : Nat)
    (h : ds.foldl (fun acc b =>
      match acc with
      | none => none
      | some n => if 48 ≤ b ∧ b ≤ 57 then some (n * 10 + (b - 48)) else none) acc = some n) :
    ∀ b ∈ ds, 48 ≤ b ∧ b ≤ 57 := by
  induction ds generalizing acc with
  | nil => intro b hb; simp at hb
  | cons x t ih =>
    intro b hb
    rw [List.foldl_cons] at h
    rcases List.mem_cons.mp hb with rfl | hb
    · by_contra hnd
      have hnone : ∀ l : GoString, l.foldl (fun acc b =>
          match acc with
          | none => none
          | some n => if 48 ≤ b ∧ b ≤ 57 then some (n * 10 + (b - 48)) else none) none = none := by
        intro l
        induction l with
        | nil => rfl
        | cons y l ihl => rw [List.foldl_cons]; exact ihl
      cases acc with
      | none => rw [hnone] at h; cases h
      | some k => simp only [hnd, ↓reduceIte] at h; rw [hnone] at h; cases h
    · exact ih _ h b hb

theorem digitsValue_digits (ds : GoString) (n : Nat) (h : digitsValue ds = some n) :
    ∀ b ∈ ds, 48 ≤ b ∧ b ≤ 57 :=
  digitsValue_foldl ds (some 0) n h

theorem Atoi_digits (ds : GoString) (n : Nat) (h : digitsValue ds = some n) (hne : ds ≠ [])
    (hfit : n ≤ 9223372036854775807) : Atoi ds = .ok (n : Int) := by
  obtain ⟨x, t, rfl⟩ := List.exists_cons_of_ne_nil hne
  have hx := digitsValue_digits _ n h x (List.mem_cons_self _ _)
  have h45 : ¬ x = 45 := by omega
  have h43 : ¬ x = 43 := by omega
  simp only [Atoi, List.head?_cons, Option.some.injEq, h45, h43, or_self, ↓reduceIte,
    reduceCtorEq, h, decide_False, Bool.false_eq_true]
  rw [if_neg (by omega)]

theorem Capture_braces (q : Quantifier) (a : GoString) :
    Quantifier.Capture q [goStr "\x7b" ++ a ++ goStr "\x7d"]
      = match (if (Cut a (goStr ",")).2.2 then some ((Cut a (goStr ",")).1, (Cut a (goStr ",")).2.1)
          else
            match Atoi a with
            | .error _ => none
            | .ok _ => some (a, a)) with
        | none => .ok (q, some ⟨goStr "invalid quantifier: got " ++ (goStr "\x7b" ++ a ++ goStr "\x7d")⟩)
        | some (srcFrom, srcTo) =>
          match Atoi srcFrom with
          | .error err => .ok (q, some ⟨goStr "invalid 'from': " ++ fmtW (some err)⟩)
          | .ok qFrom =>
            if srcTo = goStr "" then .ok (⟨qFrom, q.To⟩, none)
            else
              match Atoi srcTo with
              | .error err =>
                .ok (⟨qFrom, q.To⟩, some ⟨goStr "invalid 'to': " ++ fmtW (some err)⟩)
              | .ok qTo => .ok (⟨qFrom, some qTo⟩, none) := by
  have h1 : goStr "\x7b" = [123] := by decide
  have h2 : goStr "\x7d" = [125] := by decide
  have h3 : goStr "" = [] := by decide
  have h4 : goStr "*" = [42] := by decide
  have h5 : goStr "+" = [43] := by decide
  have h6 : goStr "?" = [63] := by decide
  have hlen : ¬ ((goStr "\x7b" ++ a ++ goStr "\x7d").length < 2) := by
    rw [h1, h2]; simp
  have hbody : ((goStr "\x7b" ++ a ++ goStr "\x7d").drop 1).take ((goStr "\x7b" ++ a ++ goStr "\x7d").length - 2)
      = a := by
    rw [h1, h2]; simp
  have hv0 : ¬ (goStr "\x7b" ++ a ++ goStr "\x7d" = goStr "") := by rw [h1, h3]; simp
  have hv1 : ¬ (goStr "\x7b" ++ a ++ goStr "\x7d" = goStr "*") := by rw [h1, h4]; simp
  have hv2 : ¬ (goStr "\x7b" ++ a ++ goStr "\x7d" = goStr "+") := by rw [h1, h5]; simp
  have hv3 : ¬ (goStr "\x7b" ++ a ++ goStr "\x7d" = goStr "?") := by rw [h1, h6]; simp
  rw [Quantifier.Capture]
  simp only [hv0, hv1, hv2, hv3, hlen, ↓reduceIte, hbody]

theorem parseAlternatives_length_le (parseAlternative : List Token → Option (Alternative × List Token))
    (toks : List Token) : (parseAlternatives parseAlternative toks).1.length ≤ 2 := by
  unfold parseAlternatives
  split
  · simp
  · split
    · simp
    · split
      · split <;> simp
      · simp

theorem utf8Bytes_ne_singleton_226 (cs : List Char) : cs.flatMap utf8Bytes ≠ [226] := by
  cases cs with
  | nil => simp
  | cons c rest =>
    rw [List.flatMap_cons]
    unfold utf8Bytes
    dsimp only
    split_ifs with h1 h2 h3
    · intro h
      simp only [List.singleton_append, List.cons.injEq] at h
      omega
    · simp
    · simp
    · simp

theorem New_validation_error (ParseString : GoString → Except GoError Regexp) (re : GoString)
    (constraint : QuantifierConstraint) (root : Regexp) (verr : GoError)
    (hp : ParseString re = .ok root)
    (hwalk : Walk ⟨none⟩ (.Regexp root) = .ok ⟨some verr⟩) :
    New ParseString re constraint = .ok (none, some ⟨goStr "invalid regex: %!w(<nil>)"⟩) := by
  have hmsg : goStr "invalid regex: " ++ fmtW none = goStr "invalid regex: %!w(<nil>)" := by
    decide
  simp only [New, hp, hwalk, Res.bind_ok, hmsg]

/-! ## The claims, continued -/

/-- C11. A negated character class that the validator accepts and whose complement within
`anyChars` is non-empty: every byte of an output of `genFromCharClass` is a byte of
`anyChars` and lies in the set of none of the members; and whenever the count of the
quantifier is drawn and is not negative, an output is produced. -/
theorem genFromCharClass_negated (chars : List CharClassKind) (q : Option Quantifier)
    (constraint : QuantifierConstraint) (rnd : Rand) (pos : Nat) (seq : GoString)
    (_hacc : ∃ b, validator.Visit ⟨none⟩ (some (.Expr (.CharClass true chars q)))
      = .ok (⟨none⟩, b))
    (hseq : charSeq chars = .ok seq) (hne : charsWithExpect anyChars seq ≠ []) :
    (∀ out pos1, genFromCharClass true chars q constraint rnd pos = .ok (out, pos1) →
      ∀ b ∈ out, b ∈ anyChars ∧ ¬ ∃ m ∈ chars, memberSet m b) ∧
    (∀ n p, getSeqLen q constraint rnd pos = .ok (n, p) → 0 ≤ n →
      ∃ out pos1, genFromCharClass true chars q constraint rnd pos = .ok (out, pos1)) := by
  constructor
  · intro out pos1 h b hb
    unfold genFromCharClass at h
    cases hlen : getSeqLen q constraint rnd pos with
    | ok r =>
      rw [hlen, Res.bind_ok, hseq, Res.bind_ok] at h
      simp only [↓reduceIte, makeRandCharsFromSeq] at h
      split at h
      · cases h
      · obtain ⟨_, hm⟩ := makeRandCharsLoop_spec _ _ _ _ _ _ h
        have hmem := (mem_charsWithExpect _ _ b).mp (hm b hb)
        refine ⟨hmem.1, fun hex => hmem.2 ?_⟩
        exact (mem_charUniq_iff seq rnd r.2 b).mpr (memberSet_charSeq chars seq hseq b hex)
    | panic m => rw [hlen] at h; cases h
    | hang => rw [hlen] at h; cases h
  · intro n p hlen hn
    have hletters : charsWithExpect anyChars (charUniq seq rnd p).1 ≠ [] := by
      obtain ⟨b, hb⟩ := List.exists_mem_of_ne_nil _ hne
      have hb1 := (mem_charsWithExpect _ _ b).mp hb
      have hb2 : b ∈ charsWithExpect anyChars (charUniq seq rnd p).1 :=
        (mem_charsWithExpect _ _ b).mpr
          ⟨hb1.1, fun hmem => hb1.2 ((mem_charUniq_iff seq rnd p b).mp hmem)⟩
      exact List.ne_nil_of_mem hb2
    obtain ⟨out, pos1, hout⟩ :=
      makeRandCharsLoop_total n.toNat _ rnd (charUniq seq rnd p).2 hletters
    refine ⟨out, pos1, ?_⟩
    unfold genFromCharClass
    rw [hlen, Res.bind_ok, hseq, Res.bind_ok]
    simp only [↓reduceIte, makeRandCharsFromSeq]
    rw [if_neg (by omega)]
    exact hout

set_option maxRecDepth 100000 in
/-- Witness of C11: the class `[^a-c]` without a quantifier and the draws 0, 0, 0, 3 gives
the letter `g`, a byte of `anyChars` outside `[a, c]`. -/
theorem genFromCharClass_negated_witness :
    genFromCharClass true [.CharClassRange (goStr "a-c")] none ⟨10⟩ (draws [0, 0, 0, 3]) 0
      = .ok (goStr "g", 4) ∧
    ∀ b ∈ goStr "g", b ∈ anyChars ∧
      ¬ ∃ m ∈ [CharClassKind.CharClassRange (goStr "a-c")], memberSet m b :=
  ⟨by decide,
    (genFromCharClass_negated [.CharClassRange (goStr "a-c")] none ⟨10⟩
      (draws [0, 0, 0, 3]) 0 (goStr "abc") ⟨true, by decide⟩ (by decide)
      (by decide)).1 (goStr "g") 4 (by decide)⟩

/-- C12. A group with at least one alternative: `genFromGroup` picks one alternative,
generates it once, draws one count for the quantifier and returns the generated text
repeated that many times; so every output is one text `s` of one alternative, repeated `k`
times verbatim, with `k` a count the quantifier permits (1 without a quantifier) when the
fields of the quantifier and the configured bound are values of `int` and the bound is not
negative. -/
theorem genFromGroup_repeats_one_text (alts : List Alternative) (q : Option Quantifier)
    (constraint : QuantifierConstraint) (rnd : Rand) (pos : Nat) (h : alts ≠ []) :
    ∃ i a, i < alts.length ∧ alts[i]? = some a ∧
      genFromGroup alts q constraint rnd pos
        = ((genFromalternative a constraint rnd (pos + 1)).bind fun chars =>
            (getSeqLen q constraint rnd chars.2).bind fun r =>
              (Repeat chars.1 r.1).bind fun s => .ok (s, r.2)) ∧
      ∀ out pos1, genFromGroup alts q constraint rnd pos = .ok (out, pos1) →
        ∃ s p k, genFromalternative a constraint rnd (pos + 1) = .ok (s, p) ∧
          getSeqLen q constraint rnd p = .ok (k, pos1) ∧
          (goInts q → configOk constraint → countPermitted q constraint k) ∧
          0 ≤ k ∧ out = (List.replicate k.toNat s).flatten := by
  obtain ⟨i, a, hi, ha, hsel⟩ := selected_alternative alts rnd pos h
  have heq : genFromGroup alts q constraint rnd pos
      = ((genFromalternative a constraint rnd (pos + 1)).bind fun chars =>
          (getSeqLen q constraint rnd chars.2).bind fun r =>
            (Repeat chars.1 r.1).bind fun s => .ok (s, r.2)) := by
    rw [genFromGroup, hsel, Res.bind_ok]
    simp only [Int.toNat_ofNat]
    rw [genFromAlternativeAt_getElem alts i a _ _ _ ha]
  refine ⟨i, a, hi, ha, heq, ?_⟩
  intro out pos1 hout
  rw [heq] at hout
  cases hs : genFromalternative a constraint rnd (pos + 1) with
  | ok chars =>
    rw [hs, Res.bind_ok] at hout
    cases hk : getSeqLen q constraint rnd chars.2 with
    | ok r =>
      rw [hk, Res.bind_ok] at hout
      unfold Repeat at hout
      split at hout
      · cases hout
      · rename_i hneg
        simp only [Res.bind_ok, Res.ok.injEq, Prod.mk.injEq] at hout
        refine ⟨chars.1, chars.2, r.1, rfl, ?_, ?_, by omega, hout.1.symm⟩
        · rw [hk, ← hout.2]
        · exact fun hq hc => getSeqLen_permitted q constraint rnd chars.2 r.1 r.2 hq hc hk
    | panic m => rw [hk] at hout; cases hout
    | hang => rw [hk] at hout; cases hout
  | panic m => rw [hs] at hout; cases hout
  | hang => rw [hs] at hout; cases hout

/-- Witness of C12: the group `([ab]){2}` with the draws 0, 0, 0, 1, 0 gives `bb`: the
class is sampled once and its text is repeated. -/
theorem genFromGroup_repeats_one_text_witness :
    genFromGroup [.mk false [.CharClass false
        [.CharClassSingleChar false (goStr "a"), .CharClassSingleChar false (goStr "b")] none]
        false] (some ⟨2, some 2⟩) ⟨10⟩ (draws [0, 0, 0, 1, 0]) 0 = .ok (goStr "bb", 5) ∧
    ∃ i a, i < [Alternative.mk false [.CharClass false
        [.CharClassSingleChar false (goStr "a"), .CharClassSingleChar false (goStr "b")] none]
        false].length ∧
      [Alternative.mk false [.CharClass false
        [.CharClassSingleChar false (goStr "a"), .CharClassSingleChar false (goStr "b")] none]
        false][i]? = some a ∧
      genFromGroup [.mk false [.CharClass false
        [.CharClassSingleChar false (goStr "a"), .CharClassSingleChar false (goStr "b")] none]
        false] (some ⟨2, some 2⟩) ⟨10⟩ (draws [0, 0, 0, 1, 0]) 0
        = ((genFromalternative a ⟨10⟩ (draws [0, 0, 0, 1, 0]) (0 + 1)).bind fun chars =>
            (getSeqLen (some ⟨2, some 2⟩) ⟨10⟩ (draws [0, 0, 0, 1, 0]) chars.2).bind fun r =>
              (Repeat chars.1 r.1).bind fun s => .ok (s, r.2)) ∧
      ∀ out pos1, genFromGroup [.mk false [.CharClass false
        [.CharClassSingleChar false (goStr "a"), .CharClassSingleChar false (goStr "b")] none]
        false] (some ⟨2, some 2⟩) ⟨10⟩ (draws [0, 0, 0, 1, 0]) 0 = .ok (out, pos1) →
        ∃ s p k, genFromalternative a ⟨10⟩ (draws [0, 0, 0, 1, 0]) (0 + 1) = .ok (s, p) ∧
          getSeqLen (some ⟨2, some 2⟩) ⟨10⟩ (draws [0, 0, 0, 1, 0]) p = .ok (k, pos1) ∧
          (goInts (some ⟨2, some 2⟩) → configOk ⟨10⟩ → countPermitted (some ⟨2, some 2⟩) ⟨10⟩ k) ∧
          0 ≤ k ∧ out = (List.replicate k.toNat s).flatten :=
  ⟨by decide,
    genFromGroup_repeats_one_text _ (some ⟨2, some 2⟩) ⟨10⟩ (draws [0, 0, 0, 1, 0]) 0
      (by simp)⟩

/-- C13. The text of an alternative is the join, in order, of the texts generated for its
expressions, each produced by `genFromNode` on that expression; it is the same for any
values of the anchor flags, and an alternative without expressions gives the empty text
whatever its anchors. -/
theorem genFromalternative_concatenates (startOfString endOfString startOfString2
    endOfString2 : Bool) (exprs : List Expr) (constraint : QuantifierConstraint) (rnd : Rand)
    (pos : Nat) :
    genFromalternative (.mk startOfString exprs endOfString) constraint rnd pos
      = ((charsArr exprs constraint rnd pos).bind fun r => .ok (r.1.flatten, r.2)) ∧
    (∀ parts p, charsArr exprs constraint rnd pos = .ok (parts, p) →
      List.Forall₂ (fun e part => ∃ p1 p2, genFromNode (.Expr e) constraint rnd p1 = .ok (part, p2))
        exprs parts) ∧
    genFromalternative (.mk startOfString exprs endOfString) constraint rnd pos
      = genFromalternative (.mk startOfString2 exprs endOfString2) constraint rnd pos ∧
    genFromalternative (.mk startOfString [] endOfString) constraint rnd pos = .ok ([], pos) := by
  refine ⟨?_, ?_, ?_, ?_⟩
  · rw [genFromalternative, genFromExprs_eq_charsArr]
  · intro parts p h
    exact charsArr_forall₂ exprs constraint rnd pos parts p h
  · rw [genFromalternative, genFromalternative]
  · rw [genFromalternative, genFromExprs]

/-- C14. A root with at least one alternative: every run of `genFromRoot` is the run of
`genFromalternative` on exactly one of the alternatives, the one whose index the first draw
selects; and every alternative is selected by some draw. -/
theorem genFromRoot_generates_one_alternative (alts : List Alternative)
    (constraint : QuantifierConstraint) (h : alts ≠ []) :
    (∀ (rnd : Rand) (pos : Nat), ∃ i a, i < alts.length ∧ alts[i]? = some a ∧
      genFromRoot ⟨alts⟩ constraint rnd pos = genFromalternative a constraint rnd (pos + 1)) ∧
    (∀ i a, alts[i]? = some a →
      (∀ (rnd : Rand) (pos : Nat), rnd pos = i →
        genFromRoot ⟨alts⟩ constraint rnd pos = genFromalternative a constraint rnd (pos + 1)) ∧
      ∀ pos : Nat, ∃ rnd : Rand,
        genFromRoot ⟨alts⟩ constraint rnd pos = genFromalternative a constraint rnd (pos + 1)) := by
  constructor
  · intro rnd pos
    obtain ⟨i, a, hi, ha, hsel⟩ := selected_alternative alts rnd pos h
    refine ⟨i, a, hi, ha, ?_⟩
    rw [genFromRoot]
    simp only [hsel, Res.bind_ok, Int.toNat_ofNat]
    exact genFromAlternativeAt_getElem alts i a _ _ _ ha
  · intro i a ha
    have hi : i < alts.length := by
      by_contra hge
      rw [List.getElem?_eq_none (by omega)] at ha
      cases ha
    have key : ∀ (rnd : Rand) (pos : Nat), rnd pos = i →
        genFromRoot ⟨alts⟩ constraint rnd pos = genFromalternative a constraint rnd (pos + 1) := by
      intro rnd pos hr
      have hmod : ((rnd pos : Int) % (alts.length : Int)).toNat = i := by
        rw [hr]
        have : ((i : Int) % (alts.length : Int)) = ((i % alts.length : Nat) : Int) := by
          norm_cast
        rw [this, Int.toNat_ofNat, Nat.mod_eq_of_lt hi]
      rw [genFromRoot]
      simp only [Intn_of_pos (alts.length : Int) rnd pos (by exact_mod_cast (by omega : 0 < alts.length)),
        Res.bind_ok, hmod]
      exact genFromAlternativeAt_getElem alts i a _ _ _ ha
    exact ⟨key, fun pos => ⟨fun _ => i, key _ pos rfl⟩⟩

/-- Witness of C14: the root of `a|b`; by the first draw it gives `a` (draw 0) or `b`
(draw 1). -/
theorem genFromRoot_generates_one_alternative_witness :
    genFromRoot ⟨[.mk false [lit "a" none] false, .mk false [lit "b" none] false]⟩ ⟨10⟩
      (draws [0]) 0 = .ok (goStr "a", 1) ∧
    genFromRoot ⟨[.mk false [lit "a" none] false, .mk false [lit "b" none] false]⟩ ⟨10⟩
      (draws [1]) 0 = .ok (goStr "b", 1) ∧
    genFromRoot ⟨[.mk false [lit "a" none] false, .mk false [lit "b" none] false]⟩ ⟨10⟩
      (draws [1]) 0 = genFromalternative (.mk false [lit "b" none] false) ⟨10⟩ (draws [1]) (0 + 1) :=
  ⟨by decide, by decide,
    ((genFromRoot_generates_one_alternative
      [.mk false [lit "a" none] false, .mk false [lit "b" none] false] ⟨10⟩ (by simp)).2
      1 (.mk false [lit "b" none] false) rfl).1 (draws [1]) 0 rfl⟩

/-- C15. `Quantifier.Capture` on a fresh receiver: `*` gives (0, unbounded), `+` gives
(1, unbounded), `?` gives (0, 1), and for decimal numerals `n`, `m` that fit in an int,
`{n}` gives (n, n), `{n,}` gives (n, unbounded), `{n,m}` gives (n, m); a node without
quantifier is generated exactly once; and a numeral that `strconv.Atoi` rejects makes
`Capture` return an error. -/
theorem Capture_maps_quantifier_bodies (ds es : GoString) (n m : Nat)
    (hn : digitsValue ds = some n) (hds : ds ≠ []) (hnfit : n ≤ 9223372036854775807)
    (hm : digitsValue es = some m) (hes : es ≠ []) (hmfit : m ≤ 9223372036854775807) :
    Quantifier.Capture ⟨0, none⟩ [goStr "*"] = .ok (⟨0, none⟩, none) ∧
    Quantifier.Capture ⟨0, none⟩ [goStr "+"] = .ok (⟨1, none⟩, none) ∧
    Quantifier.Capture ⟨0, none⟩ [goStr "?"] = .ok (⟨0, some 1⟩, none) ∧
    Quantifier.Capture ⟨0, none⟩ [goStr "\x7b" ++ ds ++ goStr "\x7d"] = .ok (⟨n, some n⟩, none) ∧
    Quantifier.Capture ⟨0, none⟩ [goStr "\x7b" ++ (ds ++ goStr ",") ++ goStr "\x7d"]
      = .ok (⟨n, none⟩, none) ∧
    Quantifier.Capture ⟨0, none⟩ [goStr "\x7b" ++ (ds ++ goStr "," ++ es) ++ goStr "\x7d"]
      = .ok (⟨n, some m⟩, none) ∧
    (∀ (c : QuantifierConstraint) (rnd : Rand) (pos : Nat),
      getSeqLen none c rnd pos = .ok (1, pos)) ∧
    (∀ a b : GoString, 44 ∉ a →
      (∀ e, Atoi a = .error e →
        (∃ q err, Quantifier.Capture ⟨0, none⟩ [goStr "\x7b" ++ a ++ goStr "\x7d"]
          = .ok (q, some err)) ∧
        (∃ q err, Quantifier.Capture ⟨0, none⟩ [goStr "\x7b" ++ (a ++ goStr "," ++ b) ++ goStr "\x7d"]
          = .ok (q, some err))) ∧
      (∀ k e, Atoi a = .ok k → b ≠ [] → Atoi b = .error e →
        ∃ q err, Quantifier.Capture ⟨0, none⟩ [goStr "\x7b" ++ (a ++ goStr "," ++ b) ++ goStr "\x7d"]
          = .ok (q, some err))) := by
  have hcomma_ds : 44 ∉ ds := fun h => by
    have := digitsValue_digits ds n hn 44 h
    omega
  have hA := Atoi_digits ds n hn hds hnfit
  have hB := Atoi_digits es m hm hes hmfit
  have hempty : goStr "" = [] := by decide
  refine ⟨by decide, by decide, by decide, ?_, ?_, ?_, fun c rnd pos => rfl, ?_⟩
  · rw [Capture_braces, goStr_comma, Cut_of_not_mem ds 44 hcomma_ds]
    simp only [Bool.false_eq_true, ↓reduceIte, hA, hempty, hds]
  · rw [Capture_braces, goStr_comma]
    have hcut : Cut (ds ++ [44]) [44] = (ds, [], true) := Cut_append ds [] 44 hcomma_ds
    simp only [hcut, ↓reduceIte, hA, hempty]
  · rw [Capture_braces, goStr_comma]
    have hcut : Cut (ds ++ [44] ++ es) [44] = (ds, es, true) := by
      rw [List.append_assoc]
      exact Cut_append ds es 44 hcomma_ds
    simp only [hcut, ↓reduceIte, hA, hempty, hes, hB]
  · intro a b ha
    have hcut : Cut (a ++ [44] ++ b) [44] = (a, b, true) := by
      rw [List.append_assoc]
      exact Cut_append a b 44 ha
    refine ⟨fun e he => ⟨?_, ?_⟩, fun k e hk hb he => ?_⟩
    · rw [Capture_braces, goStr_comma, Cut_of_not_mem a 44 ha]
      simp only [Bool.false_eq_true, ↓reduceIte, he]
      exact ⟨_, _, rfl⟩
    · rw [Capture_braces, goStr_comma]
      simp only [hcut, ↓reduceIte, he]
      exact ⟨_, _, rfl⟩
    · rw [Capture_braces, goStr_comma]
      simp only [hcut, ↓reduceIte, hk, hempty, hb, he]
      exact ⟨_, _, rfl⟩

/-- Witness of C15: the bodies `{3}`, `{3,}` and `{3,15}`. -/
theorem Capture_maps_quantifier_bodies_witness :
    Quantifier.Capture ⟨0, none⟩ [goStr "\x7b" ++ goStr "3" ++ goStr "\x7d"]
      = .ok (⟨(3 : Nat), some (3 : Nat)⟩, none) ∧
    Quantifier.Capture ⟨0, none⟩ [goStr "\x7b" ++ (goStr "3" ++ goStr ",") ++ goStr "\x7d"]
      = .ok (⟨(3 : Nat), none⟩, none) ∧
    Quantifier.Capture ⟨0, none⟩ [goStr "\x7b" ++ (goStr "3" ++ goStr "," ++ goStr "15") ++ goStr "\x7d"]
      = .ok (⟨(3 : Nat), some (15 : Nat)⟩, none) :=
  ⟨(Capture_maps_quantifier_bodies (goStr "3") (goStr "15") 3 15 (by decide) (by decide)
      (by decide) (by decide) (by decide) (by decide)).2.2.2.1,
    (Capture_maps_quantifier_bodies (goStr "3") (goStr "15") 3 15 (by decide) (by decide)
      (by decide) (by decide) (by decide) (by decide)).2.2.2.2.1,
    (Capture_maps_quantifier_bodies (goStr "3") (goStr "15") 3 15 (by decide) (by decide)
      (by decide) (by decide) (by decide) (by decide)).2.2.2.2.2.1⟩

/-- C16. The grammar of alternatives takes at most two of them: the tokens of `a|b|c` are
a syntax error at the second `|`, the group `(a|b|c)` does not match either, and no token
sequence gives more than two alternatives; one and two alternatives are parsed. -/
theorem parseRegexp_rejects_three_alternatives :
    parseRegexp parseLiteralAlternative (tokensOf "a|b|c")
      = .error ⟨goStr "unexpected token \"|\""⟩ ∧
    parseGroupAlternatives parseLiteralAlternative (tokensOf "(a|b|c)") = none ∧
    (∀ (parseAlternative : List Token → Option (Alternative × List Token)) (toks : List Token),
      (parseAlternatives parseAlternative toks).1.length ≤ 2) ∧
    parseRegexp parseLiteralAlternative (tokensOf "a")
      = .ok ⟨[.mk false [lit "a" none] false]⟩ ∧
    parseRegexp parseLiteralAlternative (tokensOf "a|b")
      = .ok ⟨[.mk false [lit "a" none] false, .mk false [lit "b" none] false]⟩ := by
  refine ⟨by rfl, by rfl, parseAlternatives_length_le, by rfl, by rfl⟩

/-- C17. A meta character is sampled byte by byte: for `.` with the draw 60,
`genFromMetaChar` returns the single byte 226, the first of the three bytes of `№` in the
table, which is not the UTF-8 text of any sequence of characters. -/
theorem genFromMetaChar_returns_fragment :
    genFromMetaChar (goStr ".") none ⟨10⟩ (draws [60]) 0 = .ok ([226], 1) ∧
    (anyChars.drop 60).take 3 = goStr "№" ∧
    ∀ cs : List Char, cs.flatMap utf8Bytes ≠ [226] := by
  refine ⟨by decide, by decide, utf8Bytes_ne_singleton_226⟩

/-- C18. The range rule of the tokenizer accepts texts on which `charClassRangeValidate`
panics: `\a-\z` (shape `\.-\.`) and `a-я` (shape `.-[^\]]`, a two-byte upper end). -/
theorem charClassRangeValidate_panics_on_lexer_range :
    CharClassRangeShape (goStr "\\a-\\z") ∧
    charClassRangeValidate (goStr "\\a-\\z")
      = .panic "charClassRangeValidate: invalid class range" ∧
    CharClassRangeShape (goStr "a-я") ∧
    charClassRangeValidate (goStr "a-я")
      = .panic "charClassRangeValidate: invalid class range" ∧
    Walk ⟨none⟩ (.Regexp (rootOf [.CharClass false [.CharClassRange (goStr "\\a-\\z")] none]))
      = .panic "charClassRangeValidate: invalid class range" := by
  refine ⟨⟨'a', 'z', true, true, by decide, by decide, by decide, by decide⟩, by decide,
    ⟨'a', 'я', false, false, by decide, by decide, by decide, by decide⟩, by decide, by decide⟩

/-- C19. With the upper end 255 the loop of `charsFromCharClassRange` never ends: the `byte`
counter wraps from 255 to 0 and stays below the bound, for every number of iterations
looked at; e.g. `charsFromCharClassRange('a', 255)` does not return. -/
theorem charsFromCharClassRange_hangs_at_255 :
    charsFromCharClassRange 97 255 = .hang ∧
    ∀ (fuel cFrom : Nat) (sb : GoString), cFrom ≤ 255 →
      charsFromCharClassRangeLoop fuel cFrom 255 sb = .hang := by
  refine ⟨?_, fun fuel cFrom sb h => ?_⟩
  · rw [charsFromCharClassRange, if_neg (by decide)]
    exact charsFromCharClassRangeLoop_hang 257 97 255 [] (le_refl _) (by decide)
  · exact charsFromCharClassRangeLoop_hang fuel cFrom 255 sb (le_refl _) h

set_option maxRecDepth 100000 in
/-- C20. The error `New` returns for a validation failure does not carry the validator's
description: for the tree of `a{3,1}` it is the fixed text `invalid regex: %!w(<nil>)`, in
which the text of the validator's error does not occur. -/
theorem New_drops_validator_error :
    Walk ⟨none⟩ (.Regexp (rootOf [lit "a" (some ⟨3, some 1⟩)]))
      = .ok ⟨some ⟨goStr
          "invalid quantifier: invalid quantifier range, expected from >= to, got (from=3, to=1)"⟩⟩ ∧
    New (fun _ => .ok (rootOf [lit "a" (some ⟨3, some 1⟩)])) (goStr "a{3,1}") ⟨10⟩
      = .ok (none, some ⟨goStr "invalid regex: %!w(<nil>)"⟩) ∧
    Index (goStr "invalid regex: %!w(<nil>)") (goStr
      "invalid quantifier: invalid quantifier range, expected from >= to, got (from=3, to=1)")
      = -1 := by
  refine ⟨by decide, ?_, by decide⟩
  exact New_validation_error _ _ _ (rootOf [lit "a" (some ⟨3, some 1⟩)])
    ⟨goStr "invalid quantifier: invalid quantifier range, expected from >= to, got (from=3, to=1)"⟩
    rfl (by decide)

end Regen
